import Mathlib

/-!
# myshell (mainSetup.c): a shallow embedding and its properties

The C program is a small interactive command interpreter.  Its functions are
embedded here as executable Lean definitions:

* bytes are natural numbers, C strings are byte lists read up to the first NUL;
* `char *args[]` is a list of slots, each `none` (NULL) or `some off` (a pointer
  to `inputBuffer[off]`);
* C `int` variables are `Int`;
* `exit(...)` and writes past the end of `args` are explicit outcomes;
* the operating system (pending `read` results, `fork` results, the table of
  child processes) is an explicit part of the state.
-/

namespace MyShell

/-! ## Constants and bytes -/

abbrev Byte := Nat

/-- The constant `MAX_LINE 128` of the source. -/
def MAX_LINE : Nat := 128
/-- The constant `MAX_ARGS 32` of the source. -/
def MAX_ARGS : Nat := 32
/-- The constant `HISTORY_COUNT 10` of the source. -/
def HISTORY_COUNT : Nat := 10

/-- The byte `'\0'`. -/
def NUL : Byte := 0
/-- The byte `'\t'`. -/
def TAB : Byte := 9
/-- The byte `'\n'`. -/
def NL : Byte := 10
/-- The byte `' '`. -/
def SP : Byte := 32
/-- The byte `'&'`. -/
def AMP : Byte := 38

/-- The C string that starts at offset `off` of a buffer: the bytes from there up to
(not including) the first NUL. -/
def cstr (buf : List Byte) (off : Nat) : List Byte :=
  (buf.drop off).takeWhile (fun b => b != NUL)

/-! ## setup -/

/-- What the call `read(STDIN_FILENO, inputBuffer, MAX_LINE)` returns. -/
inductive ReadResult where
  /-- The call `read` returned 0. -/
  | eof
  /-- The call `read` returned a negative value; `eintr` tells whether `errno == EINTR`. -/
  | error (eintr : Bool)
  /-- The call `read` returned `bytes.length > 0` and stored `bytes` at the start of the buffer. -/
  | data (bytes : List Byte)
  deriving DecidableEq, Repr

/-- The variables of `setup` that live across loop iterations.  `start` is `none` for the
C value `-1`. -/
structure ParseState where
  inputBuffer : List Byte
  args : List (Option Nat)
  background : Int
  start : Option Nat
  ct : Nat
  deriving DecidableEq, Repr

/-- The assignment `args[ct] = v`; `none` when `ct` is not a slot of the `MAX_ARGS`-slot
array (the C write would land outside the array). -/
def storeArg (args : List (Option Nat)) (ct : Nat) (v : Option Nat) :
    Option (List (Option Nat)) :=
  if ct < MAX_ARGS then some (args.set ct v) else none

/-- One iteration of the `for` loop of `setup`: the `switch (inputBuffer[i])`. -/
def setupStep (s : ParseState) (i : Nat) : Option ParseState :=
  let c := s.inputBuffer.getD i NUL
  if c = SP ∨ c = TAB then
    match s.start with
    | some st =>
      -- args[ct++] = &inputBuffer[start]; inputBuffer[i] = '\0'; start = -1;
      (storeArg s.args s.ct (some st)).map fun a =>
        { s with args := a, ct := s.ct + 1, inputBuffer := s.inputBuffer.set i NUL,
                 start := none }
    | none => some s
  else if c = NL then
    -- if (start != -1) args[ct++] = &inputBuffer[start];
    let s1 : Option ParseState :=
      match s.start with
      | some st => (storeArg s.args s.ct (some st)).map fun a =>
          { s with args := a, ct := s.ct + 1 }
      | none => some s
    -- inputBuffer[i] = '\0'; args[ct] = NULL;
    s1.bind fun s1 =>
      (storeArg s1.args s1.ct none).map fun a =>
        { s1 with inputBuffer := s1.inputBuffer.set i NUL, args := a }
  else
    -- if (start == -1) start = i;
    let s1 : ParseState :=
      match s.start with
      | none => { s with start := some i }
      | some _ => s
    -- if (inputBuffer[i] == '&') { *background = 1; inputBuffer[i] = '\0'; }
    if c = AMP then
      some { s1 with background := 1, inputBuffer := s1.inputBuffer.set i NUL }
    else some s1

/-- The loop `for (i = ...; i < length; i++)` with `n = length - i` iterations left. -/
def setupLoop : Nat → Nat → ParseState → Option ParseState
  | 0, _, s => some s
  | n + 1, i, s => (setupStep s i).bind (setupLoop n (i + 1))

/-- How a call of `setup` ends. -/
inductive SetupOutcome where
  /-- The call `setup` called `exit(status)`. -/
  | exited (status : Int)
  /-- The call `setup` wrote to `args[ct]` with `ct ≥ MAX_ARGS`. -/
  | fault
  /-- The call `setup` returned, leaving these values in `inputBuffer`, `args` and `*background`. -/
  | returned (inputBuffer : List Byte) (args : List (Option Nat)) (background : Int)
  deriving DecidableEq, Repr

/-- The function `setup(inputBuffer, args, background)`, given what its `read` returns and
the contents of the three objects before the call. -/
def setup (r : ReadResult) (inputBuffer : List Byte) (args : List (Option Nat))
    (background : Int) : SetupOutcome :=
  match r with
  | .eof => .exited 0
  | .error eintr =>
    if eintr then
      -- the loop body never runs (length < 0); args[ct] = NULL with ct = 0
      match storeArg args 0 none with
      | some a => .returned inputBuffer a background
      | none => .fault
    else .exited (-1)
  | .data bytes =>
    let buf := bytes ++ inputBuffer.drop bytes.length
    match setupLoop bytes.length 0
        { inputBuffer := buf, args := args, background := background,
          start := none, ct := 0 } with
    | none => .fault
    | some s =>
      match storeArg s.args s.ct none with
      | some a => .returned s.inputBuffer a s.background
      | none => .fault

/-- The strings an argument vector denotes, slot by slot: `none` for NULL, and for a
pointer the C string it points to in `buf`. -/
def argv (buf : List Byte) (args : List (Option Nat)) : List (Option (List Byte)) :=
  args.map (Option.map (cstr buf))

/-- The part of a NULL-terminated vector that its readers see: the entries before the
first NULL. -/
def visible {α : Type} : List (Option α) → List α
  | [] => []
  | none :: _ => []
  | some a :: rest => a :: visible rest

/-! ## The interpreter state -/

/-- What the interpreter writes to its standard streams and asks of the operating system,
in order. -/
inductive Event where
  /-- The statement `printf("myshell: ")`. -/
  | prompt
  /-- The statement `printf("%d %s\n", i, history[index])`. -/
  | historyLine (i : Int) (text : List Byte)
  /-- The statement `fprintf(stderr, "Invalid history index.\n")`. -/
  | invalidHistoryIndex
  /-- The statement `printf("There are still background processes running.\n")`. -/
  | stillRunning
  /-- The statement `printf("Process running in background: %d\n", pid)`. -/
  | backgroundNotice (pid : Int)
  /-- The statement `perror("Fork failed")`. -/
  | forkFailed
  /-- The statement `perror("Error reading command")`. -/
  | readError
  /-- The call `fork()` created the child `pid`, which starts from the given argument vector (read
  up to its first NULL). -/
  | spawned (pid : Int) (argv : List (List Byte))
  /-- The call `waitpid(pid, NULL, 0)` returned. -/
  | waited (pid : Int)
  /-- The statement `kill(pid, SIGKILL)`. -/
  | killed (pid : Int)
  /-- The statement `printf("Foreground process terminated.\n")`. -/
  | foregroundTerminated
  deriving DecidableEq, Repr

/-- The global variables of the program together with the part of the operating system
it talks to. -/
structure Shell where
  /-- The global `char history[HISTORY_COUNT][MAX_LINE]`. -/
  history : List (List Byte)
  /-- The global `int history_index`. -/
  history_index : Int
  /-- The global `int history_size`. -/
  history_size : Int
  /-- The global `pid_t foreground_pid`. -/
  foreground_pid : Int
  /-- What the successive calls of `read` on standard input will return. -/
  stdin : List ReadResult
  /-- What the successive calls of `fork` will return. -/
  forks : List Int
  /-- The children of the interpreter that have not been reaped: process id, and whether
  the child has terminated. -/
  children : List (Int × Bool)
  /-- Everything printed or signalled so far. -/
  out : List Event
  deriving DecidableEq, Repr

/-- The objects `inputBuffer`, `args` and `background` that `main` owns and hands to
`setup` and `execute_command`, next to the global state. -/
structure Locals where
  inputBuffer : List Byte
  args : List (Option Nat)
  background : Int
  g : Shell
  deriving DecidableEq, Repr

/-- How a piece of the interpreter ends. -/
inductive Outcome (α : Type) where
  /-- It returned to its caller. -/
  | ok (a : α)
  /-- It called `exit(status)`. -/
  | exited (status : Int) (g : Shell)
  /-- It wrote outside `args` or dereferenced NULL. -/
  | fault
  /-- The call `fork` returned 0: this process is the child, about to run the given vector. -/
  | child (argv : List (Option (List Byte)))
  deriving DecidableEq, Repr

/-- The state at program start: zeroed history, `history_index = 0`, `history_size = 0`,
`foreground_pid = -1`, nothing printed. -/
def Shell.initial (stdin : List ReadResult) (forks : List Int) : Shell :=
  { history := List.replicate HISTORY_COUNT (List.replicate MAX_LINE NUL),
    history_index := 0, history_size := 0, foreground_pid := -1,
    stdin := stdin, forks := forks, children := [], out := [] }

/-! ## The history ring -/

/-- The `n` bytes that `strncpy(dest, src, n)` stores in `dest`: the C string at `src`
cut to `n` bytes, padded with NUL. -/
def strncpy (src : List Byte) (n : Nat) : List Byte :=
  let s := (cstr src 0).take n
  s ++ List.replicate (n - s.length) NUL

/-- The contents of `dest` after `strcpy(dest, src)`: the C string at `src` and its
terminating NUL, then what `dest` held before. -/
def strcpy (dest src : List Byte) : List Byte :=
  let s := cstr src 0
  s ++ NUL :: dest.drop (s.length + 1)

/-- The function `add_to_history(command)`. -/
def add_to_history (command : List Byte) (g : Shell) : Shell :=
  -- strncpy(history[history_index], command, MAX_LINE);
  -- history[history_index][MAX_LINE - 1] = '\0';
  let slot := (strncpy command MAX_LINE).set (MAX_LINE - 1) NUL
  { g with
    history := g.history.set g.history_index.toNat slot,
    history_index := (g.history_index + 1).tmod HISTORY_COUNT,
    history_size := if g.history_size < HISTORY_COUNT then g.history_size + 1
                    else g.history_size }

/-- The physical slot of logical index `i`:
`(history_index - history_size + i + HISTORY_COUNT) % HISTORY_COUNT`. -/
def historySlot (g : Shell) (i : Int) : Int :=
  (g.history_index - g.history_size + i + HISTORY_COUNT).tmod HISTORY_COUNT

/-- The pairs `(i, history[index])` that the loop of `print_history` prints, in order. -/
def historyLines (g : Shell) : List (Int × List Byte) :=
  (List.range g.history_size.toNat).map fun (i : Nat) =>
    ((i : Int), cstr (g.history.getD (historySlot g i).toNat []) 0)

/-- The function `print_history()`. -/
def print_history (g : Shell) : Shell :=
  { g with out := g.out ++ (historyLines g).map fun p => Event.historyLine p.1 p.2 }

/-- The next result of `read` on standard input and the state after it; an exhausted
input is at end of file. -/
def readStdin (g : Shell) : ReadResult × Shell :=
  match g.stdin with
  | [] => (.eof, g)
  | r :: rest => (r, { g with stdin := rest })

/-- The call `setup(inputBuffer, args, &background)` inside the interpreter: it takes the
next `read` result from standard input. -/
def runSetup (l : Locals) : Outcome Locals :=
  let (r, g) := readStdin l.g
  match setup r l.inputBuffer l.args l.background with
  | .exited status =>
    .exited status (if status = 0 then g else { g with out := g.out ++ [.readError] })
  | .fault => .fault
  | .returned buf args bg => .ok { inputBuffer := buf, args := args, background := bg, g := g }

/-- The function `execute_history_command(index, args, background)`.  `uninit` is what the
local array `inputBuffer` holds before `strcpy`; the `inputBuffer` of the result is that
local array when the function returns. -/
def execute_history_command (index : Int) (args : List (Option Nat)) (background : Int)
    (uninit : List Byte) (g : Shell) : Outcome Locals :=
  if index < 0 ∨ index ≥ g.history_size then
    .ok { inputBuffer := uninit, args := args, background := background,
          g := { g with out := g.out ++ [.invalidHistoryIndex] } }
  else
    let actual_index := historySlot g index
    let inputBuffer := strcpy uninit (g.history.getD actual_index.toNat [])
    runSetup { inputBuffer := inputBuffer, args := args, background := background, g := g }

/-- The function `handle_sigint(sig)`. -/
def handle_sigint (g : Shell) : Shell :=
  if g.foreground_pid > 0 then
    { g with foreground_pid := -1,
             out := g.out ++ [.killed g.foreground_pid, .foregroundTerminated] }
  else g

/-! ## redirect_io -/

/-- The token `<`. -/
def tokIn : List Byte := [60]
/-- The token `>`. -/
def tokOut : List Byte := [62]
/-- The token `>>`. -/
def tokAppend : List Byte := [62, 62]
/-- The token `2>`. -/
def tokErr : List Byte := [50, 62]

/-- The flags of the three kinds of `open` call. -/
inductive OpenMode where
  /-- The flags `O_RDONLY`. -/
  | rdonly
  /-- The flags `O_WRONLY | O_CREAT | O_TRUNC`. -/
  | truncate
  /-- The flags `O_WRONLY | O_CREAT | O_APPEND`. -/
  | append
  deriving DecidableEq, Repr

/-- A successful `open(path, mode)` followed by `dup2(fd, stream)`. -/
structure Binding where
  stream : Nat
  path : List Byte
  mode : OpenMode
  deriving DecidableEq, Repr

/-- What `redirect_io` returns and leaves behind. -/
structure Redirected where
  ret : Int
  args : List (Option (List Byte))
  bindings : List Binding
  deriving DecidableEq, Repr

/-- One redirection branch: `fd = open(args[i + 1], mode); if (fd < 0) return -1;
dup2(fd, stream); args[i] = NULL;`.  `fs path mode` tells whether that `open` succeeds;
`open(NULL, ...)` fails. -/
def redirectTo (fs : List Byte → OpenMode → Bool) (stream : Nat) (mode : OpenMode)
    (i : Nat) (args : List (Option (List Byte))) (b : List Binding) :
    Option (List (Option (List Byte)) × List Binding) :=
  match args.getD (i + 1) none with
  | none => none
  | some path =>
    if fs path mode then
      some (args.set i none, b ++ [{ stream := stream, path := path, mode := mode }])
    else none

/-- The loop `for (i = ...; args[i] != NULL; i++)` of `redirect_io`, with the strings the
pointers denote in place of the pointers.  `n` bounds the iterations left; a slot past
the end of the list reads as NULL. -/
def redirectLoop (fs : List Byte → OpenMode → Bool) :
    Nat → Nat → List (Option (List Byte)) → List Binding → Redirected
  | 0, _, args, b => { ret := 0, args := args, bindings := b }
  | n + 1, i, args, b =>
    match args.getD i none with
    | none => { ret := 0, args := args, bindings := b }
    | some t =>
      let branch (stream : Nat) (mode : OpenMode) : Redirected :=
        match redirectTo fs stream mode i args b with
        | none => { ret := -1, args := args, bindings := b }
        | some (args1, b1) => redirectLoop fs n (i + 1) args1 b1
      if t = tokIn then branch 0 .rdonly
      else if t = tokOut then branch 1 .truncate
      else if t = tokAppend then branch 1 .append
      else if t = tokErr then branch 2 .truncate
      else redirectLoop fs n (i + 1) args b

/-- The function `redirect_io(args)`. -/
def redirect_io (fs : List Byte → OpenMode → Bool) (args : List (Option (List Byte))) :
    Redirected :=
  redirectLoop fs args.length 0 args []

/-! ## execute_command and the dispatcher loop -/

/-- The call `waitpid(-1, NULL, WNOHANG)`: the process id of a terminated child, which is
thereby reaped; 0 when there are children and none has terminated; -1 when there is no
child. -/
def waitpidAnyNoHang (children : List (Int × Bool)) : Int × List (Int × Bool) :=
  match children.find? (fun c => c.2) with
  | some c => (c.1, children.erase c)
  | none => if children.isEmpty then (-1, children) else (0, children)

/-- The call `fork()` as the parent sees it: the next value of `forks` (a failure when
there is none), the new child entering the table. -/
def fork (g : Shell) : Int × Shell :=
  match g.forks with
  | [] => (-1, g)
  | pid :: rest =>
    (pid, { g with forks := rest,
                   children := if pid > 0 then g.children ++ [(pid, false)]
                               else g.children })

/-- The bytes of `"history"`. -/
def strHistory : List Byte := [104, 105, 115, 116, 111, 114, 121]
/-- The bytes of `"exit"`. -/
def strExit : List Byte := [101, 120, 105, 116]

/-- The blocking `waitpid(pid, NULL, 0)`: the child has terminated and is reaped. -/
def waitForeground (pid : Int) (g : Shell) : Shell :=
  { g with children := g.children.filter (fun c => c.1 != pid),
           out := g.out ++ [.waited pid] }

/-- The function `execute_command(args, background)` in the interpreter process; `buf` is
the buffer the pointers of `args` point into. -/
def execute_command (buf : List Byte) (args : List (Option Nat)) (background : Int)
    (g : Shell) : Outcome Shell :=
  match args.getD 0 none with
  | none => .fault
  | some off =>
    let name := cstr buf off
    if name = strHistory then .ok (print_history g)
    else if name = strExit then
      let (r, children) := waitpidAnyNoHang g.children
      if r = 0 then .ok { g with out := g.out ++ [.stillRunning] }
      else .exited 0 { g with children := children }
    else
      let (pid, g1) := fork g
      if pid < 0 then .exited 1 { g1 with out := g1.out ++ [.forkFailed] }
      else if pid = 0 then .child (argv buf args)
      else
        let g2 : Shell := { g1 with out := g1.out ++ [Event.spawned pid (visible (argv buf args))] }
        if background = 0 then
          -- foreground_pid = pid; waitpid(pid, NULL, 0); foreground_pid = -1;
          let g3 : Shell := { g2 with foreground_pid := pid }
          let g4 : Shell := waitForeground pid g3
          .ok { g4 with foreground_pid := -1 }
        else .ok { g2 with out := g2.out ++ [.backgroundNotice pid] }

/-- One iteration of the `while (1)` loop of `main`. -/
def mainIteration (l : Locals) : Outcome Locals :=
  -- printf("myshell: "); fflush(stdout);
  let l0 := { l with g := { l.g with out := l.g.out ++ [.prompt] } }
  match runSetup l0 with
  | .ok l1 =>
    match l1.args.getD 0 none with
    | none => .ok l1
    | some _ =>
      -- add_to_history(inputBuffer); execute_command(args, background);
      let g1 := add_to_history l1.inputBuffer l1.g
      match execute_command l1.inputBuffer l1.args l1.background g1 with
      | .ok g2 => Outcome.ok { l1 with g := g2 }
      | .exited status g2 => Outcome.exited status g2
      | .fault => Outcome.fault
      | .child a => Outcome.child a
  | other => other

/-- The first `n` iterations of the `while (1)` loop, stopping early when an iteration
does not return to the loop. -/
def mainLoop : Nat → Locals → Outcome Locals
  | 0, l => .ok l
  | n + 1, l =>
    match mainIteration l with
    | .ok l1 => mainLoop n l1
    | other => other

/-! ## Reference notions the properties are stated against -/

/-- Space and tab, the two separator bytes. -/
def isBlank (b : Byte) : Bool := b == SP || b == TAB

/-- The maximal runs of non-space, non-tab bytes of a byte sequence, in order of
appearance: the sequence is cut at every space and tab and the empty pieces are dropped. -/
def maximalRuns (text : List Byte) : List (List Byte) :=
  (text.splitOnP isBlank).filter fun w => !w.isEmpty

/-- The runs of `cur ++ rest`, where `cur` is a run in progress (free of blanks). -/
def runsFrom (cur rest : List Byte) : List (List Byte) :=
  ((rest.splitOnP isBlank).modifyHead fun w => cur ++ w).filter fun w => !w.isEmpty

/-- A completed token: offset `off` of the scanned part `pre` holds the NUL-free string `w`
followed by a NUL. -/
def Closed (pre : List Byte) (off : Nat) (w : List Byte) : Prop :=
  NUL ∉ w ∧ ∃ t, pre.drop off = w ++ NUL :: t

/-- The token in progress: none when `start` is `-1`, otherwise the non-empty NUL-free
bytes from `start` to the end of the scanned part. -/
def InProgress (pre : List Byte) (start : Option Nat) (cur : List Byte) : Prop :=
  match start with
  | none => cur = []
  | some st => cur ≠ [] ∧ NUL ∉ cur ∧ pre.drop st = cur

/-! ## Concrete inputs and observations -/

/-- The bytes of the line `echo hi` with its newline. -/
def lineEchoHi : List Byte := [101, 99, 104, 111, 32, 104, 105, 10]

/-- The bytes of the line `sleep 100 &` with its newline. -/
def lineSleepAmp : List Byte := [115, 108, 101, 101, 112, 32, 49, 48, 48, 32, 38, 10]

/-- The argument vector a call of `setup` leaves behind, as its readers see it (up to the
first NULL); `none` when `setup` did not return. -/
def SetupOutcome.vector : SetupOutcome → Option (List (List Byte))
  | .returned buf args _ => some (visible (argv buf args))
  | _ => none

/-- The value of `*background` after a call of `setup`; `none` when it did not return. -/
def SetupOutcome.flag : SetupOutcome → Option Int
  | .returned _ _ background => some background
  | _ => none

/-- The value an outcome returns to its caller, if it returns. -/
def Outcome.get? {α : Type} : Outcome α → Option α
  | .ok a => some a
  | _ => none

/-- The locals of `main` at program start, given the indeterminate value of the
uninitialised `background`: here the arrays start zeroed. -/
def Locals.fresh (background : Int) (stdin : List ReadResult) (forks : List Int) : Locals :=
  { inputBuffer := List.replicate MAX_LINE NUL, args := List.replicate MAX_ARGS none,
    background := background, g := Shell.initial stdin forks }

/-- Whether a token is one of the redirection operators `<`, `>`, `>>`, `2>`. -/
def isRedirOp (t : List Byte) : Bool :=
  t == tokIn || t == tokOut || t == tokAppend || t == tokErr

/-- The argument list with every redirection operator token and the token that follows it
deleted, all other arguments kept in order (the list the specification asks for). -/
def stripRedirections : List (List Byte) → List (List Byte)
  | [] => []
  | [t] => if isRedirOp t then [] else [t]
  | t :: f :: rest =>
    if isRedirOp t then stripRedirections rest else t :: stripRedirections (f :: rest)

/-- The vector with every redirection operator before the first NULL replaced by NULL. -/
def nullOperators : List (Option (List Byte)) → List (Option (List Byte))
  | [] => []
  | none :: rest => none :: rest
  | some t :: rest => (if isRedirOp t then none else some t) :: nullOperators rest

/-- The bytes of `ls`. -/
def strLs : List Byte := [108, 115]
/-- The bytes of `out.txt`. -/
def strOutTxt : List Byte := [111, 117, 116, 46, 116, 120, 116]
/-- The bytes of `-l`. -/
def strDashL : List Byte := [45, 108]

/-- The listing asked of `print_history` after the lines `lines` were inserted: the pairs
`(i, text)` for `i` from 0 to `min M 10 - 1`, where `M` is the number of lines and `text` is
the line inserted at position `M - min M 10 + i` (counting from 0). -/
def lastLines (lines : List (List Byte)) : List (Int × List Byte) :=
  (List.range (min lines.length HISTORY_COUNT)).map fun (i : Nat) =>
    ((i : Int), lines.getD (lines.length - min lines.length HISTORY_COUNT + i) [])

/-- The ring holds the most recent of `lines`: ten slots, the cursor at `M mod 10`, the
count at `min M 10`, and the line inserted at position `k` in slot `k mod 10` for each of
the last `min M 10` positions `k`. -/
def RingHolds (lines : List (List Byte)) (g : Shell) : Prop :=
  g.history.length = HISTORY_COUNT ∧
  g.history_index = ((lines.length % HISTORY_COUNT : Nat) : Int) ∧
  g.history_size = ((min lines.length HISTORY_COUNT : Nat) : Int) ∧
  ∀ k, lines.length - min lines.length HISTORY_COUNT ≤ k → k < lines.length →
    cstr (g.history.getD (k % HISTORY_COUNT) []) 0 = lines.getD k []

/-- The bytes of `echo`. -/
def strEcho : List Byte := [101, 99, 104, 111]
/-- The bytes of `hi`. -/
def strHi : List Byte := [104, 105]
/-- The bytes of `pwd`. -/
def strPwd : List Byte := [112, 119, 100]
/-- The bytes of `date`. -/
def strDate : List Byte := [100, 97, 116, 101]
/-- The bytes of the line `pwd` with its newline. -/
def linePwd : List Byte := strPwd ++ [NL]
/-- The bytes of the line `history` with its newline. -/
def lineHistory : List Byte := strHistory ++ [NL]
/-- The bytes of the line `exit` with its newline. -/
def lineExit : List Byte := strExit ++ [NL]

/-- The status an outcome exits the interpreter with, if it does. -/
def Outcome.exitStatus? {α : Type} : Outcome α → Option Int
  | .exited status _ => some status
  | _ => none

/-- The `(index, text)` pairs among the printed events, in order. -/
def listed : List Event → List (Int × List Byte)
  | [] => []
  | .historyLine i text :: rest => (i, text) :: listed rest
  | _ :: rest => listed rest

/-- The operating system marks the child `pid` as terminated (it stays in the table until
it is reaped). -/
def childTerminates (pid : Int) (g : Shell) : Shell :=
  { g with children := g.children.map fun c => if c.1 = pid then (c.1, true) else c }

/-- A byte that can stand inside a plain word: not a space, tab, newline, `&` or NUL. -/
def isWordByte (b : Byte) : Bool :=
  b != SP && b != TAB && b != NL && b != AMP && b != NUL

/-- A command line that is one plain word: non-empty, made of word bytes, short enough to
fit a `read` together with its newline, and not the word `exit`. -/
def IsCommandWord (w : List Byte) : Prop :=
  w ≠ [] ∧ w.length < MAX_LINE ∧ (∀ b ∈ w, isWordByte b = true) ∧ w ≠ strExit

/-- The bytes of a line of 33 one-letter words: `a ` repeated 33 times, then a newline
(67 bytes). -/
def lineManyWords : List Byte := (List.replicate 33 [97, SP]).flatten ++ [NL]

/-- The predicate on the history cursor and count: `0 <= history_index < 10`,
`0 <= history_size <= 10`, and `history_size < 10` implies `history_index = history_size`. -/
def RingInv (g : Shell) : Prop :=
  (0 ≤ g.history_index ∧ g.history_index < HISTORY_COUNT) ∧
  (0 ≤ g.history_size ∧ g.history_size ≤ HISTORY_COUNT) ∧
  (g.history_size < HISTORY_COUNT → g.history_index = g.history_size)

/-- The state an outcome leaves the globals in, when it returned or exited. -/
def Outcome.shell? : Outcome Locals → Option Shell
  | .ok l => some l.g
  | .exited _ g => some g
  | _ => none

/-- A ring that is full and has wrapped: the one-byte lines 1 to 13 inserted into the
initial state, so the cursor is at slot 3 and the count is 10. -/
def wrappedRing : Shell :=
  ([[1], [2], [3], [4], [5], [6], [7], [8], [9], [10], [11], [12], [13]] :
      List (List Byte)).foldl
    (fun g l => add_to_history (l ++ [NUL]) g) (Shell.initial [] [])

/-! ## The PATH search of the child -/

/-- The byte `':'`. -/
def COLON : Byte := 58
/-- The byte `'/'`. -/
def SLASH : Byte := 47

/-- One call of `strtok(..., ":")`, given the part of the string it has not scanned yet:
it skips leading colons; if nothing is left it returns NULL (`none`); otherwise it returns
the bytes up to the next colon or the end, and keeps what follows that colon for the next
call. -/
def strtok (rest : List Byte) : Option (List Byte × List Byte) :=
  let r := rest.dropWhile (fun b => b == COLON)
  if r.isEmpty then none
  else some (r.takeWhile (fun b => b != COLON), (r.dropWhile (fun b => b != COLON)).drop 1)

/-- The string `snprintf(full_path, sizeof(full_path), "%s/%s", dir, name)` leaves in the
`MAX_LINE`-byte array `full_path`: the text cut to `MAX_LINE - 1` bytes. -/
def snprintfPath (dir name : List Byte) : List Byte :=
  (dir ++ SLASH :: name).take (MAX_LINE - 1)

/-- How the search of the child ends. -/
inductive ChildEnd where
  /-- An `execv(full_path, args)` succeeded: the child now runs that program. -/
  | replaced (path : List Byte)
  /-- Every `execv` failed: `Command not found` is printed and the child calls `exit(1)`. -/
  | notFound
  deriving DecidableEq, Repr

/-- The paths given to `execv`, in order, and how the search ended. -/
structure Search where
  attempts : List (List Byte)
  result : ChildEnd
  deriving DecidableEq, Repr

/-- The loop `while (dir != NULL)` of the child in `execute_command`.  `execOk p` tells
whether `execv(p, args)` succeeds; `dir` is the current result of `strtok` together with
the unscanned rest of PATH; `n` bounds the iterations left (`none` when it runs out). -/
def searchLoop (execOk : List Byte → Bool) (name : List Byte) :
    Nat → Option (List Byte × List Byte) → List (List Byte) → Option Search
  | 0, _, _ => none
  | _ + 1, none, attempts => some { attempts := attempts, result := .notFound }
  | n + 1, some (dir, rest), attempts =>
    -- snprintf(full_path, sizeof(full_path), "%s/%s", dir, args[0]); execv(full_path, args);
    let full_path := snprintfPath dir name
    if execOk full_path then
      some { attempts := attempts ++ [full_path], result := .replaced full_path }
    else
      -- dir = strtok(NULL, ":");
      searchLoop execOk name n (strtok rest) (attempts ++ [full_path])

/-- The search of the child for the program `name` (the string `args[0]`) in the value
`path` of the environment variable PATH: `dir = strtok(path, ":")`, then the loop. -/
def searchPath (execOk : List Byte → Bool) (path name : List Byte) : Option Search :=
  searchLoop execOk name (path.length + 1) (strtok path) []

/-- Trying a list of candidate paths in order: the attempts stop at the first candidate
whose `execv` succeeds, and the search fails when none does. -/
def tryInOrder (execOk : List Byte → Bool) : List (List Byte) → Search
  | [] => { attempts := [], result := .notFound }
  | p :: ps =>
    if execOk p then { attempts := [p], result := .replaced p }
    else { attempts := p :: (tryInOrder execOk ps).attempts,
           result := (tryInOrder execOk ps).result }

/-- The candidates the specification lists: `d/name` for each field `d` of PATH split on
`:`, one per field. -/
def fieldCandidates (path name : List Byte) : List (List Byte) :=
  (path.splitOnP fun b => b == COLON).map fun d => d ++ SLASH :: name

/-- The candidates the program forms: `d/name` cut to `MAX_LINE - 1` bytes, for each
non-empty field `d` of PATH split on `:`. -/
def nonEmptyFieldCandidates (path name : List Byte) : List (List Byte) :=
  ((path.splitOnP fun b => b == COLON).filter fun d => !d.isEmpty).map fun d =>
    snprintfPath d name

/-- The bytes of the PATH value `:/bin`, whose first field is empty. -/
def pathEmptyThenBin : List Byte := [58, 47, 98, 105, 110]

/-- The non-empty fields of a PATH value split on `:`, in order. -/
def pathDirs (path : List Byte) : List (List Byte) :=
  (path.splitOnP fun b => b == COLON).filter fun d => !d.isEmpty

/-! ## The foreground slot as a step relation -/

/-- Where the interpreter stands: in the loop of `main` with no call of `execute_command`
in progress, or inside `execute_command` between `foreground_pid = pid` and the assignment
`foreground_pid = -1` that follows `waitpid(pid, NULL, 0)`. -/
inductive Phase where
  | idle
  | waiting (pid : Int)
  deriving DecidableEq, Repr

/-- The global state together with the phase. -/
structure Job where
  g : Shell
  phase : Phase
  deriving DecidableEq, Repr

/-- The parent side of `execute_command(args, 0)` for a command that is not a built-in, up
to and including `foreground_pid = pid`: the process id of the child and the state at that
point; `none` when the command is a built-in or `fork` does not return a child. -/
def launchForeground (buf : List Byte) (args : List (Option Nat)) (g : Shell) :
    Option (Int × Shell) :=
  match args.getD 0 none with
  | none => none
  | some off =>
    let name := cstr buf off
    if name = strHistory then none
    else if name = strExit then none
    else
      let (pid, g1) := fork g
      if pid < 0 then none
      else if pid = 0 then none
      else
        some (pid, { g1 with out := g1.out ++ [Event.spawned pid (visible (argv buf args))],
                             foreground_pid := pid })

/-- The rest of the foreground branch: `waitpid(pid, NULL, 0); foreground_pid = -1;`. -/
def finishForeground (pid : Int) (g : Shell) : Shell :=
  { waitForeground pid g with foreground_pid := -1 }

/-- The steps of the interpreter that touch or may touch the foreground slot. -/
inductive JobStep : Job → Job → Prop where
  /-- A call of `execute_command` that runs from entry to return: a built-in, a background
  launch, or a foreground launch that no signal interrupts. -/
  | command (buf : List Byte) (args : List (Option Nat)) (background : Int) (g g1 : Shell) :
      execute_command buf args background g = .ok g1 → JobStep ⟨g, .idle⟩ ⟨g1, .idle⟩
  /-- The first half of a foreground launch, up to `foreground_pid = pid`. -/
  | launch (buf : List Byte) (args : List (Option Nat)) (g g1 : Shell) (pid : Int) :
      launchForeground buf args g = some (pid, g1) → JobStep ⟨g, .idle⟩ ⟨g1, .waiting pid⟩
  /-- The second half: `waitpid` returns and the slot is cleared. -/
  | finish (g : Shell) (pid : Int) :
      JobStep ⟨g, .waiting pid⟩ ⟨finishForeground pid g, .idle⟩
  /-- The signal handler runs, in whatever phase. -/
  | sigint (j : Job) : JobStep j ⟨handle_sigint j.g, j.phase⟩

/-- The slot is empty outside a foreground wait, and inside one it holds the positive
process id waited for or has been emptied by the handler. -/
def SlotInv (j : Job) : Prop :=
  match j.phase with
  | .idle => j.g.foreground_pid = -1
  | .waiting pid => 0 < pid ∧ (j.g.foreground_pid = pid ∨ j.g.foreground_pid = -1)

/-- An idle interpreter in its initial state, whose next `fork` returns 100. -/
def jobStart : Job := { g := Shell.initial [] [100], phase := .idle }

/-- The interpreter waiting for the foreground child 100 it launched for `ls`. -/
def jobWaiting : Job :=
  { g := { Shell.initial [] [] with
           children := [(100, false)], out := [.spawned 100 [strLs]],
           foreground_pid := 100 },
    phase := .waiting 100 }

/-! ## Tokens of lines that contain `&` -/

/-- The part of a run before its first `&`. -/
def beforeAmp (w : List Byte) : List Byte :=
  w.takeWhile fun b => b != AMP

/-- What `setup` leaves in the buffer in place of a byte of a token: NUL for `&`, the byte
itself otherwise. -/
def zapByte (b : Byte) : Byte :=
  if b = AMP then NUL else b

/-- The token in progress when `&` is allowed: none when `start` is `-1`, otherwise the
non-empty NUL-free bytes `cur` read since `start`, which stand in the buffer with every
`&` replaced by NUL. -/
def InProgressAmp (pre : List Byte) (start : Option Nat) (cur : List Byte) : Prop :=
  match start with
  | none => cur = []
  | some st => cur ≠ [] ∧ NUL ∉ cur ∧ pre.drop st = cur.map zapByte

/-- The value of `*background` after `setup` has scanned `bytes`: 1 when a `&` is among
them, the value before the call otherwise. -/
def flagAfter (background : Int) (bytes : List Byte) : Int :=
  if bytes.any (fun b => b == AMP) then 1 else background

/-! # Properties -/

/-! ## Lists as C arrays -/

theorem getD_at_length {α : Type} (pre : List α) (x d : α) (t : List α) :
    (pre ++ x :: t).getD pre.length d = x := by
  induction pre with
  | nil => rfl
  | cons a pre ih => simpa using ih

theorem set_at_length {α : Type} (pre : List α) (x v : α) (t : List α) :
    (pre ++ x :: t).set pre.length v = pre ++ v :: t := by
  induction pre with
  | nil => rfl
  | cons a pre ih => simp [ih]

theorem takeWhile_upto_nul (w t : List Byte) (hw : NUL ∉ w) :
    (w ++ NUL :: t).takeWhile (fun b => b != NUL) = w := by
  induction w with
  | nil => simp [List.takeWhile]
  | cons a w ih =>
    have ha : (a != NUL) = true := by
      simp only [bne_iff_ne]
      exact fun e => hw (by simp [e])
    have hw' : NUL ∉ w := fun e => hw (by simp [e])
    rw [List.cons_append, List.takeWhile_cons, ha]
    simp [ih hw']

theorem cstr_of_drop (buf : List Byte) (off : Nat) (w t : List Byte)
    (hw : NUL ∉ w) (h : buf.drop off = w ++ NUL :: t) : cstr buf off = w := by
  unfold cstr
  rw [h]
  exact takeWhile_upto_nul w t hw

theorem drop_grow (pre : List Byte) (off : Nat) (w t x : List Byte)
    (h : pre.drop off = w ++ NUL :: t) : (pre ++ x).drop off = w ++ NUL :: (t ++ x) := by
  have hle : off ≤ pre.length := by
    by_contra hc
    have : pre.drop off = [] := List.drop_eq_nil_of_le (by omega)
    rw [this] at h
    simp at h
  rw [List.drop_append_of_le_length hle, h]
  simp


theorem maximalRuns_eq_runsFrom (text : List Byte) : maximalRuns text = runsFrom [] text := by
  unfold maximalRuns runsFrom
  congr 1
  cases h : List.splitOnP isBlank text <;> simp [List.modifyHead]

theorem runsFrom_nil (cur : List Byte) :
    runsFrom cur [] = if cur = [] then [] else [cur] := by
  unfold runsFrom
  cases cur <;> simp [List.modifyHead]

theorem runsFrom_blank (cur : List Byte) (c : Byte) (r : List Byte) (hc : isBlank c = true) :
    runsFrom cur (c :: r) = (if cur = [] then [] else [cur]) ++ runsFrom [] r := by
  rw [← maximalRuns_eq_runsFrom]
  unfold runsFrom maximalRuns
  rw [List.splitOnP_cons, if_pos hc]
  cases cur <;> simp [List.modifyHead]

theorem runsFrom_nonblank (cur : List Byte) (c : Byte) (r : List Byte)
    (hc : isBlank c = false) : runsFrom cur (c :: r) = runsFrom (cur ++ [c]) r := by
  unfold runsFrom
  rw [List.splitOnP_cons]
  simp only [hc, Bool.false_eq_true, if_false]
  cases h : List.splitOnP isBlank r <;> simp [List.modifyHead]


/-! ## Single steps of the scanning loop -/

theorem isBlank_iff (c : Byte) : isBlank c = true ↔ c = SP ∨ c = TAB := by
  simp [isBlank]

theorem setupStep_blank_idle (pre X : List Byte) (c : Byte) (a : List (Option Nat))
    (bg : Int) (ct : Nat) (hc : isBlank c = true) :
    setupStep ⟨pre ++ c :: X, a, bg, none, ct⟩ pre.length
      = some ⟨pre ++ c :: X, a, bg, none, ct⟩ := by
  have hc' := (isBlank_iff c).1 hc
  simp only [setupStep, getD_at_length]
  simp [hc']

theorem setupStep_blank_close (pre X : List Byte) (c : Byte) (a : List (Option Nat))
    (bg : Int) (st ct : Nat) (hc : isBlank c = true) :
    setupStep ⟨pre ++ c :: X, a, bg, some st, ct⟩ pre.length
      = (storeArg a ct (some st)).map fun a1 =>
          ⟨pre ++ NUL :: X, a1, bg, none, ct + 1⟩ := by
  have hc' := (isBlank_iff c).1 hc
  simp only [setupStep, getD_at_length, set_at_length]
  simp [hc']

theorem setupStep_newline_idle (pre X : List Byte) (a : List (Option Nat))
    (bg : Int) (ct : Nat) :
    setupStep ⟨pre ++ NL :: X, a, bg, none, ct⟩ pre.length
      = (storeArg a ct none).map fun a1 => ⟨pre ++ NUL :: X, a1, bg, none, ct⟩ := by
  simp only [setupStep, getD_at_length, set_at_length]
  simp [NL, SP, TAB]

theorem setupStep_newline_close (pre X : List Byte) (a : List (Option Nat))
    (bg : Int) (st ct : Nat) :
    setupStep ⟨pre ++ NL :: X, a, bg, some st, ct⟩ pre.length
      = (storeArg a ct (some st)).bind fun a1 =>
          (storeArg a1 (ct + 1) none).map fun a2 =>
            ⟨pre ++ NUL :: X, a2, bg, some st, ct + 1⟩ := by
  simp only [setupStep, getD_at_length]
  cases h : storeArg a ct (some st) <;> simp [set_at_length, NL, SP, TAB]

theorem setupStep_plain (pre X : List Byte) (c : Byte) (a : List (Option Nat))
    (bg : Int) (start : Option Nat) (ct : Nat)
    (hb : isBlank c = false) (hnl : c ≠ NL) (hamp : c ≠ AMP) :
    setupStep ⟨pre ++ c :: X, a, bg, start, ct⟩ pre.length
      = some ⟨pre ++ c :: X, a, bg, some (start.getD pre.length), ct⟩ := by
  have hb' : ¬ (c = SP ∨ c = TAB) := by
    rw [← isBlank_iff]; simp [hb]
  cases start <;> simp only [setupStep, getD_at_length] <;> simp [hb', hnl, hamp]

theorem setupStep_amp (pre X : List Byte) (a : List (Option Nat))
    (bg : Int) (start : Option Nat) (ct : Nat) :
    setupStep ⟨pre ++ AMP :: X, a, bg, start, ct⟩ pre.length
      = some ⟨pre ++ NUL :: X, a, 1, some (start.getD pre.length), ct⟩ := by
  cases start <;> simp only [setupStep, getD_at_length, set_at_length] <;>
    simp [AMP, NL, SP, TAB]

theorem storeArg_next (offs : List Nat) (junk : List (Option Nat)) (v : Option Nat)
    (hlen : (offs.map some ++ junk).length = MAX_ARGS) (hlt : offs.length < MAX_ARGS) :
    ∃ j junk1, junk = j :: junk1 ∧
      storeArg (offs.map some ++ junk) offs.length v = some (offs.map some ++ v :: junk1) := by
  cases junk with
  | nil => simp at hlen; omega
  | cons j junk1 =>
    refine ⟨j, junk1, rfl, ?_⟩
    have h := set_at_length (offs.map some) j v junk1
    rw [List.length_map] at h
    simp [storeArg, hlt, h]


theorem Closed.grow {pre : List Byte} {off : Nat} {w : List Byte} (x : List Byte)
    (h : Closed pre off w) : Closed (pre ++ x) off w :=
  ⟨h.1, h.2.elim fun t ht => ⟨t ++ x, drop_grow pre off w t x ht⟩⟩

theorem Closed.cstr_eq {pre : List Byte} {off : Nat} {w : List Byte} (x : List Byte)
    (h : Closed pre off w) : cstr (pre ++ x) off = w :=
  (h.grow x).2.elim fun t ht => cstr_of_drop _ off w t h.1 ht

theorem closed_map {pre : List Byte} {offs : List Nat} {done : List (List Byte)}
    (x : List Byte) (h : List.Forall₂ (Closed pre) offs done) :
    offs.map (cstr (pre ++ x)) = done := by
  induction h with
  | nil => rfl
  | cons hd _ ih => simp [hd.cstr_eq x, ih]

theorem closed_grow_all {pre : List Byte} {offs : List Nat} {done : List (List Byte)}
    (x : List Byte) (h : List.Forall₂ (Closed pre) offs done) :
    List.Forall₂ (Closed (pre ++ x)) offs done := by
  induction h with
  | nil => exact List.Forall₂.nil
  | cons hd _ ih => exact List.Forall₂.cons (hd.grow x) ih

theorem closed_snoc {pre : List Byte} {offs : List Nat} {done : List (List Byte)}
    {st : Nat} {cur : List Byte} (h : List.Forall₂ (Closed pre) offs done)
    (hc : Closed pre st cur) : List.Forall₂ (Closed pre) (offs ++ [st]) (done ++ [cur]) := by
  induction h with
  | nil => exact List.Forall₂.cons hc List.Forall₂.nil
  | cons hd _ ih => exact List.Forall₂.cons hd ih

theorem inProgress_closed {pre : List Byte} {st : Nat} {cur : List Byte}
    (h : InProgress pre (some st) cur) : Closed (pre ++ [NUL]) st cur := by
  obtain ⟨hne, hnul, hdrop⟩ := h
  refine ⟨hnul, [], ?_⟩
  have hle : st ≤ pre.length := by
    by_contra hc
    exact hne (hdrop ▸ List.drop_eq_nil_of_le (by omega))
  rw [List.drop_append_of_le_length hle, hdrop]

theorem inProgress_extend {pre : List Byte} {start : Option Nat} {cur : List Byte}
    (c : Byte) (hc : c ≠ NUL) (h : InProgress pre start cur) :
    InProgress (pre ++ [c]) (some (start.getD pre.length)) (cur ++ [c]) := by
  cases start with
  | none =>
    have h0 : cur = [] := h
    subst h0
    refine ⟨by simp, ?_, by simp⟩
    simpa using fun e => hc e.symm
  | some st =>
    obtain ⟨hne, hnul, hdrop⟩ := h
    have hle : st ≤ pre.length := by
      by_contra hx
      exact hne (hdrop ▸ List.drop_eq_nil_of_le (by omega))
    refine ⟨by simp, ?_, ?_⟩
    · simp only [List.mem_append, List.mem_singleton, not_or]
      exact ⟨hnul, fun e => hc e.symm⟩
    · simp only [Option.getD_some]
      rw [List.drop_append_of_le_length hle, hdrop]

theorem setupLoop_scan (rest : List Byte) :
    ∀ (pre tl : List Byte) (bg : Int) (start : Option Nat) (offs : List Nat)
      (junk : List (Option Nat)) (done : List (List Byte)) (cur : List Byte),
      (∀ b ∈ rest, b ≠ NL ∧ b ≠ AMP ∧ b ≠ NUL) →
      (offs.map some ++ junk).length = MAX_ARGS →
      List.Forall₂ (Closed pre) offs done →
      InProgress pre start cur →
      done.length + (runsFrom cur rest).length < MAX_ARGS →
      ∃ (buf : List Byte) (offs1 : List Nat) (junk1 : List (Option Nat))
        (start1 : Option Nat),
        setupLoop (rest.length + 1) pre.length
            ⟨pre ++ rest ++ NL :: tl, offs.map some ++ junk, bg, start, offs.length⟩
          = some ⟨buf, offs1.map some ++ none :: junk1, bg, start1, offs1.length⟩ ∧
        (offs1.map some ++ none :: junk1).length = MAX_ARGS ∧
        offs1.map (cstr buf) = done ++ runsFrom cur rest := by
  induction rest with
  | nil =>
    intro pre tl bg start offs junk done cur _ hlen hdone hcur hbound
    have hdl : offs.length = done.length := hdone.length_eq
    rw [runsFrom_nil] at hbound ⊢
    simp only [List.length_nil, Nat.zero_add, List.append_nil, setupLoop]
    cases start with
    | none =>
      have hcur0 : cur = [] := hcur
      subst hcur0
      simp only [if_true, List.length_nil, Nat.add_zero] at hbound
      obtain ⟨j, junk1, rfl, hst⟩ := storeArg_next offs junk none hlen (by omega)
      refine ⟨pre ++ NUL :: tl, offs, junk1, none, ?_, ?_, ?_⟩
      · rw [setupStep_newline_idle, hst]; rfl
      · simpa using hlen
      · simp [closed_map _ hdone]
    | some st =>
      have hne : cur ≠ [] := hcur.1
      simp only [hne, if_false, List.length_singleton] at hbound ⊢
      obtain ⟨j, junk1, rfl, hst⟩ := storeArg_next offs junk (some st) hlen (by omega)
      have hlen2 : ((offs ++ [st]).map some ++ junk1).length = MAX_ARGS := by
        simpa [Nat.add_assoc] using hlen
      obtain ⟨j2, junk2, rfl, hst2⟩ :=
        storeArg_next (offs ++ [st]) junk1 none hlen2 (by simp; omega)
      have hcl := closed_snoc (closed_grow_all [NUL] hdone) (inProgress_closed hcur)
      refine ⟨pre ++ NUL :: tl, offs ++ [st], junk2, some st, ?_, ?_, ?_⟩
      · rw [setupStep_newline_close, hst]
        simp only [List.length_append, List.length_singleton, List.map_append,
          List.map_cons, List.map_nil, List.append_assoc, List.singleton_append] at hst2 ⊢
        simp [hst2]
      · simpa using hlen2
      · have := closed_map tl hcl
        simpa using this
  | cons c r ih =>
    intro pre tl bg start offs junk done cur hclean hlen hdone hcur hbound
    have hdl : offs.length = done.length := hdone.length_eq
    have hc := hclean c (List.mem_cons_self c r)
    have hclean1 : ∀ b ∈ r, b ≠ NL ∧ b ≠ AMP ∧ b ≠ NUL :=
      fun b hb => hclean b (List.mem_cons_of_mem c hb)
    have hbuf : pre ++ c :: r ++ NL :: tl = pre ++ c :: (r ++ NL :: tl) := by simp
    have hnext : ∀ x : Byte, pre ++ x :: (r ++ NL :: tl) = (pre ++ [x]) ++ r ++ NL :: tl := by
      intro x; simp
    have hpl : ∀ x : Byte, pre.length + 1 = (pre ++ [x]).length := by intro x; simp
    simp only [List.length_cons, setupLoop, hbuf]
    cases hb : isBlank c with
    | true =>
      rw [runsFrom_blank cur c r hb] at hbound ⊢
      cases start with
      | none =>
        have hcur0 : cur = [] := hcur
        subst hcur0
        simp only [if_true, List.nil_append] at hbound ⊢
        rw [setupStep_blank_idle pre _ c _ bg _ hb, Option.some_bind, hnext c, hpl c]
        exact ih (pre ++ [c]) tl bg none offs junk done [] hclean1 hlen
          (closed_grow_all [c] hdone) rfl hbound
      | some st =>
        have hne : cur ≠ [] := hcur.1
        simp only [hne, if_false, List.length_append, List.length_singleton] at hbound
        simp only [hne, if_false]
        obtain ⟨j, junk1, rfl, hst⟩ := storeArg_next offs junk (some st) hlen (by omega)
        have hlen2 : ((offs ++ [st]).map some ++ junk1).length = MAX_ARGS := by
          simpa [Nat.add_assoc] using hlen
        have hcl := closed_snoc (closed_grow_all [NUL] hdone) (inProgress_closed hcur)
        have hih := ih (pre ++ [NUL]) tl bg none (offs ++ [st]) junk1 (done ++ [cur]) []
          hclean1 hlen2 hcl rfl (by simp; omega)
        rw [setupStep_blank_close pre _ c _ bg st _ hb, hst]
        simp only [Option.map_some', Option.some_bind, hnext NUL, hpl NUL]
        simpa using hih
    | false =>
      rw [runsFrom_nonblank cur c r hb] at hbound ⊢
      rw [setupStep_plain pre _ c _ bg start _ hb hc.1 hc.2.1, Option.some_bind, hnext c, hpl c]
      have hcur1 := inProgress_extend c hc.2.2 hcur
      obtain ⟨buf, offs1, junk1, start1, h1, h2, h3⟩ :=
        ih (pre ++ [c]) tl bg (some (start.getD pre.length)) offs junk done (cur ++ [c])
          hclean1 hlen (closed_grow_all [c] hdone) hcur1 hbound
      exact ⟨buf, offs1, junk1, start1, h1, h2, h3⟩


/-- C1: a line of at most `MAX_LINE` bytes that has no `&`, no NUL, no newline but its last
byte, and at most 31 words makes `setup` return with `args` holding exactly the maximal runs
of non-space, non-tab bytes of the line, in order, followed by the NULL sentinel; the
background flag is left as it was. -/
theorem setup_yields_maximal_runs (body inputBuffer : List Byte)
    (args : List (Option Nat)) (background : Int)
    (_hlen : (body ++ [NL]).length ≤ MAX_LINE)
    (hargs : args.length = MAX_ARGS)
    (hclean : ∀ b ∈ body, b ≠ NL ∧ b ≠ AMP ∧ b ≠ NUL)
    (hwords : (maximalRuns body).length ≤ 31) :
    ∃ buf args1,
      setup (.data (body ++ [NL])) inputBuffer args background
        = .returned buf args1 background ∧
      (argv buf args1).take ((maximalRuns body).length + 1)
        = (maximalRuns body).map some ++ [none] := by
  rw [maximalRuns_eq_runsFrom] at hwords ⊢
  obtain ⟨buf, offs1, junk1, start1, hloop, hlen1, hstr⟩ :=
    setupLoop_scan body [] (inputBuffer.drop (body ++ [NL]).length) background none []
      args [] [] hclean (by simpa using hargs) List.Forall₂.nil rfl
      (by simp only [List.length_nil, Nat.zero_add, MAX_ARGS]; omega)
  have hcount : offs1.length = (runsFrom [] body).length := by
    have := congrArg List.length hstr
    simpa using this
  obtain ⟨j, junk2, hj, hst⟩ :=
    storeArg_next offs1 (none :: junk1) none hlen1 (by rw [hcount, MAX_ARGS]; omega)
  obtain ⟨rfl, rfl⟩ := List.cons.inj hj
  refine ⟨buf, offs1.map some ++ none :: junk1, ?_, ?_⟩
  · simp only [setup, List.length_append, List.length_singleton]
    simp only [List.length_nil, List.nil_append, List.map_nil, List.length_append,
      List.length_singleton, List.append_assoc, List.singleton_append] at hloop
    simp only [List.append_assoc, List.singleton_append]
    rw [hloop]
    simp only [hst]
  · rw [List.nil_append] at hstr
    rw [← hstr]
    simp [argv, List.take_append_eq_append_take]

/-- C1 at the line `echo hi` followed by a newline: the vector is `echo`, `hi`, NULL. -/
theorem setup_yields_maximal_runs_witness :
    ∃ buf args1,
      setup (.data ([101, 99, 104, 111, 32, 104, 105] ++ [NL])) (List.replicate 128 0)
          (List.replicate 32 none) 0
        = .returned buf args1 0 ∧
      (argv buf args1).take 3 = [some [101, 99, 104, 111], some [104, 105], none] :=
  setup_yields_maximal_runs [101, 99, 104, 111, 32, 104, 105] (List.replicate 128 0)
    (List.replicate 32 none) 0 (by decide) (by decide) (by decide) (by decide)

/-- C2 at a failing input: the line `echo hi` has no `&`, yet when the flag is 1 before the
call (as it is once an earlier line had an `&`) it is still 1 after `setup`; `setup` never
clears it. -/
theorem setup_keeps_flag_set :
    AMP ∉ lineEchoHi ∧
    (setup (.data lineEchoHi) (List.replicate MAX_LINE NUL) (List.replicate MAX_ARGS none) 1).flag
      = some 1 ∧
    ((mainLoop 2 (Locals.fresh 0 [.data lineSleepAmp, .data lineEchoHi] [100, 101])).get?.map
      fun l => l.background) = some 1 := by
  decide

/-- C3 at a failing input: for the line `sleep 100 &` the vector `setup` leaves is `sleep`,
`100` and the empty string. -/
theorem setup_amp_gives_empty_argument :
    lineSleepAmp.length ≤ MAX_LINE ∧
    (setup (.data lineSleepAmp) (List.replicate MAX_LINE NUL) (List.replicate MAX_ARGS none) 0).vector
      = some [[115, 108, 101, 101, 112], [49, 48, 48], []] := by
  decide

/-! ## redirect_io -/

theorem redirectLoop_succ (fs : List Byte → OpenMode → Bool) (n i : Nat)
    (args : List (Option (List Byte))) (b : List Binding) :
    redirectLoop fs (n + 1) i args b =
      match args.getD i none with
      | none => { ret := 0, args := args, bindings := b }
      | some t =>
        if t = tokIn then
          match redirectTo fs 0 .rdonly i args b with
          | none => { ret := -1, args := args, bindings := b }
          | some (args1, b1) => redirectLoop fs n (i + 1) args1 b1
        else if t = tokOut then
          match redirectTo fs 1 .truncate i args b with
          | none => { ret := -1, args := args, bindings := b }
          | some (args1, b1) => redirectLoop fs n (i + 1) args1 b1
        else if t = tokAppend then
          match redirectTo fs 1 .append i args b with
          | none => { ret := -1, args := args, bindings := b }
          | some (args1, b1) => redirectLoop fs n (i + 1) args1 b1
        else if t = tokErr then
          match redirectTo fs 2 .truncate i args b with
          | none => { ret := -1, args := args, bindings := b }
          | some (args1, b1) => redirectLoop fs n (i + 1) args1 b1
        else redirectLoop fs n (i + 1) args b := by
  rfl

theorem getD_past_end {α : Type} (l : List α) (d : α) : l.getD l.length d = d := by
  induction l with
  | nil => rfl
  | cons a l _ => simp

theorem redirectTo_opens (fs : List Byte → OpenMode → Bool) (hopen : ∀ p m, fs p m = true)
    (stream : Nat) (mode : OpenMode) (pre : List (Option (List Byte))) (t p : List Byte)
    (r : List (Option (List Byte))) (b : List Binding) :
    redirectTo fs stream mode pre.length (pre ++ some t :: some p :: r) b
      = some (pre ++ none :: some p :: r, b ++ [{ stream := stream, path := p, mode := mode }]) := by
  have h1 : (pre ++ some t :: some p :: r).getD (pre.length + 1) none = some p := by
    have := getD_at_length (pre ++ [some t]) (some p) none r
    simp only [List.length_append, List.length_singleton, List.append_assoc,
      List.singleton_append] at this
    exact this
  simp only [redirectTo, h1, hopen, set_at_length, if_true]

theorem visible_nullOperators (l : List (Option (List Byte))) :
    visible (nullOperators l) = (visible l).takeWhile fun t => !isRedirOp t := by
  induction l with
  | nil => rfl
  | cons a l ih =>
    cases a with
    | none => rfl
    | some t =>
      cases h : isRedirOp t <;> simp [nullOperators, visible, h, ih]

theorem isRedirOp_false_iff (t : List Byte) :
    isRedirOp t = false ↔ t ≠ tokIn ∧ t ≠ tokOut ∧ t ≠ tokAppend ∧ t ≠ tokErr := by
  simp [isRedirOp, and_assoc]

theorem redirectLoop_all_open (fs : List Byte → OpenMode → Bool)
    (hopen : ∀ p m, fs p m = true) (rest : List (Option (List Byte))) :
    ∀ (pre : List (Option (List Byte))) (n : Nat) (b : List Binding),
      rest.length ≤ n →
      (∀ t ∈ (visible rest).getLast?, isRedirOp t = false) →
      ∃ b1, redirectLoop fs n pre.length (pre ++ rest) b
        = { ret := 0, args := pre ++ nullOperators rest, bindings := b1 } := by
  induction rest with
  | nil =>
    intro pre n b _ _
    cases n with
    | zero => exact ⟨b, rfl⟩
    | succ m =>
      refine ⟨b, ?_⟩
      rw [redirectLoop_succ]
      simp [getD_past_end, nullOperators]
  | cons a r ih =>
    intro pre n b hn hlast
    cases n with
    | zero => simp at hn
    | succ m =>
      have hm : r.length ≤ m := by simpa using hn
      rw [redirectLoop_succ, getD_at_length]
      cases a with
      | none => exact ⟨b, rfl⟩
      | some t =>
        have hnext : ∀ x : Option (List Byte), pre ++ x :: r = (pre ++ [x]) ++ r := by
          intro x; simp
        have hpl : ∀ x : Option (List Byte), pre.length + 1 = (pre ++ [x]).length := by
          intro x; simp
        cases hop : isRedirOp t with
        | false =>
          have hlast1 : ∀ u ∈ (visible r).getLast?, isRedirOp u = false := by
            intro u hu
            cases hv : visible r with
            | nil => simp [hv] at hu
            | cons v vs =>
              apply hlast u
              simp only [visible, hv, List.getLast?_cons_cons]
              simpa [hv] using hu
          obtain ⟨h1, h2, h3, h4⟩ := (isRedirOp_false_iff t).1 hop
          obtain ⟨b1, hb1⟩ := ih (pre ++ [some t]) m b hm hlast1
          refine ⟨b1, ?_⟩
          simp only [h1, h2, h3, h4, if_false]
          rw [hnext, hpl (some t), hb1]
          simp [nullOperators, hop]
        | true =>
          cases r with
          | nil =>
            have := hlast t (by simp [visible])
            simp [hop] at this
          | cons f r1 =>
            cases f with
            | none =>
              have := hlast t (by simp [visible])
              simp [hop] at this
            | some p =>
              have hlast1 : ∀ u ∈ (visible (some p :: r1)).getLast?, isRedirOp u = false := by
                intro u hu
                apply hlast u
                simpa [visible, List.getLast?_cons_cons] using hu
              have key : ∀ (stream : Nat) (mode : OpenMode), ∃ b1,
                  (match redirectTo fs stream mode pre.length (pre ++ some t :: some p :: r1) b with
                    | none => ({ ret := -1, args := pre ++ some t :: some p :: r1, bindings := b } : Redirected)
                    | some (args1, b1) => redirectLoop fs m (pre.length + 1) args1 b1)
                  = { ret := 0, args := pre ++ nullOperators (some t :: some p :: r1),
                      bindings := b1 } := by
                intro stream mode
                obtain ⟨b1, hb1⟩ := ih (pre ++ [none]) m
                  (b ++ [{ stream := stream, path := p, mode := mode }]) hm hlast1
                refine ⟨b1, ?_⟩
                rw [redirectTo_opens fs hopen]
                simp only []
                rw [hnext none, hpl none, hb1]
                simp [nullOperators, hop]
              show ∃ b1, (if t = tokIn then _ else _) = _
              by_cases h1 : t = tokIn
              · rw [if_pos h1]; exact key 0 .rdonly
              by_cases h2 : t = tokOut
              · rw [if_neg h1, if_pos h2]; exact key 1 .truncate
              by_cases h3 : t = tokAppend
              · rw [if_neg h1, if_neg h2, if_pos h3]; exact key 1 .append
              by_cases h4 : t = tokErr
              · rw [if_neg h1, if_neg h2, if_neg h3, if_pos h4]; exact key 2 .truncate
              · have := (isRedirOp_false_iff t).2 ⟨h1, h2, h3, h4⟩
                simp [hop] at this


/-- C4 as it stands fails: on `ls > out.txt -l`, where each operator has its filename and
every `open` succeeds, the program sees `ls` only, not `ls -l`. -/
theorem redirect_io_hides_arguments_after_operator :
    visible (redirect_io (fun _ _ => true)
        [some strLs, some tokOut, some strOutTxt, some strDashL, none]).args = [strLs] ∧
    stripRedirections [strLs, tokOut, strOutTxt, strDashL] = [strLs, strDashL] ∧
    visible (redirect_io (fun _ _ => true)
        [some strLs, some tokOut, some strOutTxt, some strDashL, none]).args
      ≠ stripRedirections [strLs, tokOut, strOutTxt, strDashL] := by
  decide

/-- C4 amended: when every `open` succeeds and the vector does not end in a redirection
operator, `redirect_io` returns 0 and the list left visible to the launched program is the
original list cut at its first redirection operator: the arguments before the first of
`<`, `>`, `>>`, `2>`, in order, and nothing from that operator on. -/
theorem redirect_io_keeps_arguments_before_first_operator
    (fs : List Byte → OpenMode → Bool) (args : List (Option (List Byte)))
    (hopen : ∀ p m, fs p m = true)
    (hfile : ∀ t ∈ (visible args).getLast?, isRedirOp t = false) :
    (redirect_io fs args).ret = 0 ∧
    visible (redirect_io fs args).args
      = (visible args).takeWhile fun t => !isRedirOp t := by
  obtain ⟨b1, hb1⟩ := redirectLoop_all_open fs hopen args [] args.length [] (Nat.le_refl _) hfile
  have h : redirect_io fs args = { ret := 0, args := nullOperators args, bindings := b1 } := by
    simpa [redirect_io] using hb1
  rw [h]
  exact ⟨rfl, visible_nullOperators args⟩

/-- C4 amended, at `ls > out.txt -l`: `redirect_io` returns 0 and leaves `ls` visible. -/
theorem redirect_io_keeps_arguments_before_first_operator_witness :
    (redirect_io (fun _ _ => true)
        [some strLs, some tokOut, some strOutTxt, some strDashL, none]).ret = 0 ∧
    visible (redirect_io (fun _ _ => true)
        [some strLs, some tokOut, some strOutTxt, some strDashL, none]).args
      = [strLs, tokOut, strOutTxt, strDashL].takeWhile fun t => !isRedirOp t :=
  redirect_io_keeps_arguments_before_first_operator (fun _ _ => true)
    [some strLs, some tokOut, some strOutTxt, some strDashL, none] (fun _ _ => rfl) (by decide)

/-! ## The history ring -/

theorem cstr_nul_free (cmd : List Byte) (off : Nat) : NUL ∉ cstr cmd off := by
  intro h
  have := List.mem_takeWhile_imp h
  simp at this

theorem cstr_terminated (l : List Byte) (t : List Byte) (h : NUL ∉ l) :
    cstr (l ++ NUL :: t) 0 = l :=
  cstr_of_drop _ 0 l t h rfl

theorem cstr_history_slot (cmd : List Byte) (hl : (cstr cmd 0).length < MAX_LINE) :
    cstr ((strncpy cmd MAX_LINE).set (MAX_LINE - 1) NUL) 0 = cstr cmd 0 := by
  have htake : (cstr cmd 0).take MAX_LINE = cstr cmd 0 :=
    List.take_of_length_le (by omega)
  obtain ⟨n, hn⟩ : ∃ n, MAX_LINE - (cstr cmd 0).length = n + 1 := ⟨_, (Nat.succ_pred_eq_of_pos (by omega)).symm⟩
  have hs : strncpy cmd MAX_LINE = cstr cmd 0 ++ NUL :: List.replicate n NUL := by
    simp only [strncpy, htake, hn, List.replicate_succ]
  rw [hs, List.set_append]
  have : ¬ (MAX_LINE - 1 < (cstr cmd 0).length) := by omega
  rw [if_neg this]
  cases hk : MAX_LINE - 1 - (cstr cmd 0).length with
  | zero => exact cstr_terminated _ _ (cstr_nul_free cmd 0)
  | succ k => exact cstr_terminated _ _ (cstr_nul_free cmd 0)

theorem getD_set_same {α : Type} (l : List α) (i : Nat) (v d : α) (h : i < l.length) :
    (l.set i v).getD i d = v := by
  simp [List.getD_eq_getElem?_getD, List.getElem?_set, h]

theorem getD_set_other {α : Type} (l : List α) (i j : Nat) (v d : α) (h : i ≠ j) :
    (l.set i v).getD j d = l.getD j d := by
  simp [List.getD_eq_getElem?_getD, List.getElem?_set, h]

theorem ringHolds_initial (stdin : List ReadResult) (forks : List Int) :
    RingHolds [] (Shell.initial stdin forks) := by
  refine ⟨by simp [Shell.initial], rfl, rfl, ?_⟩
  intro k _ hk
  simp at hk

theorem ringHolds_add (lines : List (List Byte)) (g : Shell) (cmd : List Byte)
    (h : RingHolds lines g) (hl : (cstr cmd 0).length < MAX_LINE) :
    RingHolds (lines ++ [cstr cmd 0]) (add_to_history cmd g) := by
  obtain ⟨hlen, hidx, hsize, hent⟩ := h
  simp only [HISTORY_COUNT] at hlen hidx hsize hent
  have hnat : g.history_index.toNat = lines.length % 10 := by omega
  refine ⟨?_, ?_, ?_, ?_⟩
  · simp [add_to_history, hlen, HISTORY_COUNT]
  · simp only [add_to_history, HISTORY_COUNT, List.length_append, List.length_singleton]
    rw [Int.tmod_eq_emod (by omega) (by decide), hidx]
    omega
  · simp only [add_to_history, HISTORY_COUNT, List.length_append, List.length_singleton, hsize]
    split <;> omega
  · intro k hk1 hk2
    simp only [HISTORY_COUNT, List.length_append, List.length_singleton] at hk1 hk2 ⊢
    simp only [add_to_history, hnat]
    by_cases hkM : k = lines.length
    · subst hkM
      rw [getD_set_same _ _ _ _ (by omega), cstr_history_slot cmd hl]
      simp [List.getD_eq_getElem?_getD]
    · have hne : lines.length % 10 ≠ k % 10 := by omega
      rw [getD_set_other _ _ _ _ _ hne, hent k (by omega) (by omega)]
      rw [List.getD_append _ _ _ _ (by omega)]

theorem historyLines_of_ringHolds (lines : List (List Byte)) (g : Shell)
    (h : RingHolds lines g) : historyLines g = lastLines lines := by
  obtain ⟨hlen, hidx, hsize, hent⟩ := h
  simp only [HISTORY_COUNT] at hlen hidx hsize hent
  have hcount : g.history_size.toNat = min lines.length 10 := by omega
  simp only [historyLines, lastLines, hcount, HISTORY_COUNT]
  apply List.map_congr_left
  intro i hi
  have hi' : i < min lines.length 10 := List.mem_range.1 hi
  have hslot : (historySlot g i).toNat = (lines.length - min lines.length 10 + i) % 10 := by
    simp only [historySlot, HISTORY_COUNT]
    rw [Int.tmod_eq_emod (by omega) (by decide), hidx, hsize]
    omega
  rw [hslot, hent _ (by omega) (by omega)]


theorem add_to_history_out (cmd : List Byte) (g : Shell) :
    (add_to_history cmd g).out = g.out := rfl

theorem ringHolds_foldl (lines : List (List Byte)) :
    ∀ (base : List (List Byte)) (g : Shell),
      RingHolds base g →
      (∀ l ∈ lines, l.length < MAX_LINE ∧ NUL ∉ l) →
      RingHolds (base ++ lines) (lines.foldl (fun g l => add_to_history (l ++ [NUL]) g) g) ∧
      (lines.foldl (fun g l => add_to_history (l ++ [NUL]) g) g).out = g.out := by
  induction lines with
  | nil =>
    intro base g h _
    simpa using h
  | cons l ls ih =>
    intro base g h hl
    have hl1 := hl l (List.mem_cons_self l ls)
    have hc : cstr (l ++ [NUL]) 0 = l := cstr_terminated l [] hl1.2
    have hadd := ringHolds_add base g (l ++ [NUL]) h (by rw [hc]; exact hl1.1)
    rw [hc] at hadd
    obtain ⟨h1, h2⟩ := ih (base ++ [l]) (add_to_history (l ++ [NUL]) g) hadd
      (fun x hx => hl x (List.mem_cons_of_mem l hx))
    refine ⟨?_, ?_⟩
    · simpa using h1
    · simpa [add_to_history_out] using h2

/-- C5: starting from the empty ring, after `add_to_history` was called with the lines
`lines` (each shorter than `MAX_LINE` bytes and NUL-free, passed as C strings),
`print_history` prints exactly the pairs `(i, text)` for `i` from 0 to `min M 10 - 1`, with
`text` the line inserted at position `M - min M 10 + i`: the last ten lines, oldest first. -/
theorem print_history_lists_last_lines (lines : List (List Byte))
    (stdin : List ReadResult) (forks : List Int)
    (hlines : ∀ l ∈ lines, l.length < MAX_LINE ∧ NUL ∉ l) :
    (print_history
        (lines.foldl (fun g l => add_to_history (l ++ [NUL]) g) (Shell.initial stdin forks))).out
      = (lastLines lines).map fun p => Event.historyLine p.1 p.2 := by
  obtain ⟨h1, h2⟩ := ringHolds_foldl lines [] _ (ringHolds_initial stdin forks) hlines
  rw [List.nil_append] at h1
  simp only [print_history, h2, historyLines_of_ringHolds lines _ h1]
  simp [Shell.initial]

/-- C5 for eleven one-byte lines: the listing is the last ten, numbered from 0. -/
theorem print_history_lists_last_lines_witness :
    (print_history
        (([[1], [2], [3], [4], [5], [6], [7], [8], [9], [10], [11]] : List (List Byte)).foldl
          (fun g l => add_to_history (l ++ [NUL]) g) (Shell.initial [] []))).out
      = [.historyLine 0 [2], .historyLine 1 [3], .historyLine 2 [4], .historyLine 3 [5],
         .historyLine 4 [6], .historyLine 5 [7], .historyLine 6 [8], .historyLine 7 [9],
         .historyLine 8 [10], .historyLine 9 [11]] :=
  print_history_lists_last_lines [[1], [2], [3], [4], [5], [6], [7], [8], [9], [10], [11]]
    [] [] (by decide)

/-- C6 at a failing input: after the line `echo hi` the one history entry is `echo`, the
text up to the first separator that `setup` overwrote, not `echo hi`. -/
theorem dispatcher_records_truncated_line :
    ((mainIteration (Locals.fresh 0 [.data lineEchoHi] [100])).get?.map
      fun l => historyLines l.g) = some [(0, strEcho)] ∧
    strEcho ≠ lineEchoHi.dropLast := by
  decide

/-- C7 as it stands fails: after the lines `ls`, `pwd`, `date`, the line `history` lists four
entries, the fourth being `history` itself. -/
theorem history_builtin_lists_four_entries :
    ((mainLoop 4 (Locals.fresh 0
        [.data (strLs ++ [NL]), .data linePwd, .data (strDate ++ [NL]), .data lineHistory]
        [100, 101, 102])).get?.map fun l => listed l.g.out)
      = some [(0, strLs), (1, strPwd), (2, strDate), (3, strHistory)] ∧
    ((mainLoop 4 (Locals.fresh 0
        [.data (strLs ++ [NL]), .data linePwd, .data (strDate ++ [NL]), .data lineHistory]
        [100, 101, 102])).get?.map fun l => listed l.g.out)
      ≠ some [(0, strLs), (1, strPwd), (2, strDate)] := by
  decide

/-- C8 at a failing input: with the single history entry `ls`, `execute_history_command(0)`
parses what the next `read` on standard input returns: `pwd` when that is the line `pwd`,
`echo hi` when that is the line `echo hi`, and it exits when the input is at its end. -/
theorem execute_history_command_parses_stdin :
    historyLines (add_to_history (strLs ++ [NUL]) (Shell.initial [] [])) = [(0, strLs)] ∧
    ((execute_history_command 0 (List.replicate MAX_ARGS none) 0 (List.replicate MAX_LINE NUL)
        (add_to_history (strLs ++ [NUL]) (Shell.initial [.data linePwd] []))).get?.map
      fun l => (visible (argv l.inputBuffer l.args), l.g.stdin)) = some ([strPwd], []) ∧
    ((execute_history_command 0 (List.replicate MAX_ARGS none) 0 (List.replicate MAX_LINE NUL)
        (add_to_history (strLs ++ [NUL]) (Shell.initial [.data lineEchoHi] []))).get?.map
      fun l => (visible (argv l.inputBuffer l.args), l.g.stdin)) = some ([strEcho, strHi], []) ∧
    (execute_history_command 0 (List.replicate MAX_ARGS none) 0 (List.replicate MAX_LINE NUL)
        (add_to_history (strLs ++ [NUL]) (Shell.initial [] []))).exitStatus? = some 0 := by
  decide

/-- C9: for an index below 0 or not below `history_size`, `execute_history_command` reports
the invalid index and returns with `args`, `background`, its buffer and every part of the
state as before: the history slots, cursor and count, `foreground_pid`, the pending input,
the child table; the one change is the message. -/
theorem execute_history_command_invalid_index (index : Int) (args : List (Option Nat))
    (background : Int) (uninit : List Byte) (g : Shell)
    (hindex : index < 0 ∨ index ≥ g.history_size) :
    execute_history_command index args background uninit g
      = .ok { inputBuffer := uninit, args := args, background := background,
              g := { g with out := g.out ++ [.invalidHistoryIndex] } } ∧
    ∀ l, execute_history_command index args background uninit g = .ok l →
      l.g.history = g.history ∧ l.g.history_index = g.history_index ∧
      l.g.history_size = g.history_size ∧ l.args = args ∧ l.background = background ∧
      l.g.foreground_pid = g.foreground_pid ∧ l.g.stdin = g.stdin ∧
      l.g.forks = g.forks ∧ l.g.children = g.children := by
  have h : execute_history_command index args background uninit g
      = .ok { inputBuffer := uninit, args := args, background := background,
              g := { g with out := g.out ++ [.invalidHistoryIndex] } } := by
    simp only [execute_history_command, hindex, if_true]
  refine ⟨h, ?_⟩
  intro l hl
  rw [h] at hl
  cases hl
  simp

/-- C9 at index 1 with one entry in the ring and a line pending on standard input. -/
theorem execute_history_command_invalid_index_witness :
    execute_history_command 1 (List.replicate MAX_ARGS none) 0 (List.replicate MAX_LINE NUL)
        (add_to_history (strLs ++ [NUL]) (Shell.initial [.data linePwd] []))
      = .ok { inputBuffer := List.replicate MAX_LINE NUL, args := List.replicate MAX_ARGS none,
              background := 0,
              g := { add_to_history (strLs ++ [NUL]) (Shell.initial [.data linePwd] []) with
                     out := [.invalidHistoryIndex] } } ∧
    ∀ l, execute_history_command 1 (List.replicate MAX_ARGS none) 0
          (List.replicate MAX_LINE NUL)
          (add_to_history (strLs ++ [NUL]) (Shell.initial [.data linePwd] [])) = .ok l →
      l.g.history = (add_to_history (strLs ++ [NUL]) (Shell.initial [.data linePwd] [])).history ∧
      l.g.history_index = 1 ∧ l.g.history_size = 1 ∧
      l.args = List.replicate MAX_ARGS none ∧ l.background = 0 ∧
      l.g.foreground_pid = -1 ∧ l.g.stdin = [.data linePwd] ∧
      l.g.forks = [] ∧ l.g.children = [] :=
  execute_history_command_invalid_index 1 (List.replicate MAX_ARGS none) 0
    (List.replicate MAX_LINE NUL)
    (add_to_history (strLs ++ [NUL]) (Shell.initial [.data linePwd] [])) (by decide)

/-- C10 at a failing input: two background children were launched (process ids 5 and 7),
child 5 has terminated and is not reaped, child 7 is still running; `exit` terminates the
interpreter with status 0 instead of refusing. -/
theorem exit_ignores_running_child_behind_zombie :
    ((mainLoop 2 (Locals.fresh 0 [.data lineSleepAmp, .data lineSleepAmp, .data lineExit]
        [5, 7])).get?.map fun l => (childTerminates 5 l.g).children)
      = some [(5, true), (7, false)] ∧
    ((mainLoop 2 (Locals.fresh 0 [.data lineSleepAmp, .data lineSleepAmp, .data lineExit]
        [5, 7])).get?.map fun l =>
          (mainIteration { l with g := childTerminates 5 l.g }).exitStatus?)
      = some (some 0) := by
  decide

/-! ## One-word command lines through the dispatcher loop -/

theorem isWordByte_spec (b : Byte) (h : isWordByte b = true) :
    isBlank b = false ∧ b ≠ NL ∧ b ≠ AMP ∧ b ≠ NUL := by
  simp only [isWordByte, Bool.and_eq_true, bne_iff_ne, ne_eq] at h
  obtain ⟨⟨⟨⟨h1, h2⟩, h3⟩, h4⟩, h5⟩ := h
  refine ⟨?_, h3, h4, h5⟩
  cases hb : isBlank b with
  | false => rfl
  | true =>
    rcases (isBlank_iff b).1 hb with h | h
    · exact absurd h h1
    · exact absurd h h2

theorem setupLoop_succ (n i : Nat) (s : ParseState) :
    setupLoop (n + 1) i s = (setupStep s i).bind (setupLoop n (i + 1)) := rfl

theorem setupLoop_word (rest : List Byte) :
    ∀ (pre X : List Byte) (a : List (Option Nat)) (bg : Int) (start : Option Nat) (ct : Nat),
      (∀ b ∈ rest, isWordByte b = true) →
      setupLoop (rest.length + 1) pre.length ⟨pre ++ rest ++ NL :: X, a, bg, start, ct⟩
        = setupStep ⟨pre ++ rest ++ NL :: X, a, bg,
            (if rest = [] then start else some (start.getD pre.length)), ct⟩
            (pre ++ rest).length := by
  induction rest with
  | nil =>
    intro pre X a bg start ct _
    simp [setupLoop]
  | cons c r ih =>
    intro pre X a bg start ct hw
    obtain ⟨hb, hnl, hamp, _⟩ := isWordByte_spec c (hw c (List.mem_cons_self c r))
    have hbuf : pre ++ c :: r ++ NL :: X = pre ++ c :: (r ++ NL :: X) := by simp
    have hnext : pre ++ c :: (r ++ NL :: X) = (pre ++ [c]) ++ r ++ NL :: X := by simp
    have hpl : pre.length + 1 = (pre ++ [c]).length := by simp
    have hlen : (pre ++ c :: r).length = (pre ++ [c] ++ r).length := by simp
    rw [List.length_cons, setupLoop_succ]
    rw [hbuf, setupStep_plain pre _ c a bg start ct hb hnl hamp, Option.some_bind, hnext, hpl,
      ih (pre ++ [c]) X a bg (some (start.getD pre.length)) ct
        (fun b hb => hw b (List.mem_cons_of_mem c hb)), hlen]
    cases r <;> simp

theorem setup_word (w inputBuffer : List Byte) (args : List (Option Nat)) (background : Int)
    (hne : w ≠ []) (hw : ∀ b ∈ w, isWordByte b = true) :
    setup (.data (w ++ [NL])) inputBuffer args background
      = .returned (w ++ NUL :: inputBuffer.drop (w.length + 1))
          ((args.set 0 (some 0)).set 1 none) background := by
  have h := setupLoop_word w [] (inputBuffer.drop (w.length + 1)) args background none 0 hw
  simp only [List.nil_append, List.length_nil, hne, if_false, Option.getD_none] at h
  have hs := setupStep_newline_close w (inputBuffer.drop (w.length + 1)) args background 0 0
  simp only [setup, List.length_append, List.length_singleton, List.append_assoc,
    List.singleton_append]
  rw [h, hs]
  simp [storeArg, MAX_ARGS]


theorem ringHolds_congr {lines : List (List Byte)} {g g1 : Shell} (h : RingHolds lines g)
    (h1 : g1.history = g.history) (h2 : g1.history_index = g.history_index)
    (h3 : g1.history_size = g.history_size) : RingHolds lines g1 := by
  unfold RingHolds at *
  rw [h1, h2, h3]
  exact h

theorem mainIteration_word_eq (l : Locals) (w : List Byte) (rest : List ReadResult)
    (hne : w ≠ []) (hw : ∀ b ∈ w, isWordByte b = true)
    (hargs : l.args.length = MAX_ARGS) (hstdin : l.g.stdin = .data (w ++ [NL]) :: rest) :
    mainIteration l =
      match execute_command (w ++ NUL :: l.inputBuffer.drop (w.length + 1))
          ((l.args.set 0 (some 0)).set 1 none) l.background
          (add_to_history (w ++ NUL :: l.inputBuffer.drop (w.length + 1))
            { l.g with stdin := rest, out := l.g.out ++ [.prompt] }) with
      | .ok g2 => Outcome.ok
          { inputBuffer := w ++ NUL :: l.inputBuffer.drop (w.length + 1),
            args := (l.args.set 0 (some 0)).set 1 none, background := l.background, g := g2 }
      | .exited status g2 => Outcome.exited status g2
      | .fault => Outcome.fault
      | .child a => Outcome.child a := by
  have h0 : ((l.args.set 0 (some 0)).set 1 none).getD 0 none = some 0 := by
    cases hl : l.args with
    | nil => simp [hl, MAX_ARGS] at hargs
    | cons a as => cases as <;> simp
  simp only [mainIteration, runSetup, readStdin, hstdin, setup_word _ _ _ _ hne hw, h0]

theorem execute_command_history (buf : List Byte) (args : List (Option Nat))
    (background : Int) (g : Shell) (off : Nat)
    (h0 : args.getD 0 none = some off) (hname : cstr buf off = strHistory) :
    execute_command buf args background g = .ok (print_history g) := by
  simp only [execute_command, h0, hname, if_true]

theorem execute_command_launch (buf : List Byte) (args : List (Option Nat))
    (background : Int) (g : Shell) (off : Nat) (pid : Int) (fs : List Int)
    (h0 : args.getD 0 none = some off) (h1 : cstr buf off ≠ strHistory)
    (h2 : cstr buf off ≠ strExit) (hf : g.forks = pid :: fs) (hpid : 0 < pid) :
    ∃ g2, execute_command buf args background g = .ok g2 ∧
      g2.history = g.history ∧ g2.history_index = g.history_index ∧
      g2.history_size = g.history_size ∧ g2.stdin = g.stdin ∧ g2.forks = fs := by
  have hn1 : ¬ pid < 0 := by omega
  have hn2 : ¬ pid = 0 := by omega
  by_cases hb : background = 0
  · simp only [execute_command, h0, h1, h2, fork, hf, hn1, hn2, hb, if_true, if_false]
    exact ⟨_, rfl, by simp [waitForeground]⟩
  · simp only [execute_command, h0, h1, h2, fork, hf, hn1, hn2, hb, if_false]
    exact ⟨_, rfl, by simp⟩

theorem mainIteration_word (l : Locals) (w : List Byte) (rest : List ReadResult)
    (lines : List (List Byte)) (n : Nat) (hw : IsCommandWord w)
    (hargs : l.args.length = MAX_ARGS) (hstdin : l.g.stdin = .data (w ++ [NL]) :: rest)
    (hring : RingHolds lines l.g)
    (hforks : n + 1 ≤ l.g.forks.length ∧ ∀ p ∈ l.g.forks, 0 < p) :
    ∃ l1, mainIteration l = .ok l1 ∧ l1.args.length = MAX_ARGS ∧ l1.g.stdin = rest ∧
      RingHolds (lines ++ [w]) l1.g ∧
      (n ≤ l1.g.forks.length ∧ ∀ p ∈ l1.g.forks, 0 < p) := by
  obtain ⟨hne, hlen, hbytes, hexit⟩ := hw
  have hnul : NUL ∉ w := fun h => (isWordByte_spec NUL (hbytes NUL h)).2.2.2 rfl
  have hc : cstr (w ++ NUL :: l.inputBuffer.drop (w.length + 1)) 0 = w :=
    cstr_terminated w _ hnul
  have h0 : ((l.args.set 0 (some 0)).set 1 none).getD 0 none = some 0 := by
    cases hl : l.args with
    | nil => simp [hl, MAX_ARGS] at hargs
    | cons a as => cases as <;> simp
  have hadd := ringHolds_add lines { l.g with stdin := rest, out := l.g.out ++ [.prompt] }
    (w ++ NUL :: l.inputBuffer.drop (w.length + 1))
    (ringHolds_congr hring rfl rfl rfl) (by rw [hc]; exact hlen)
  rw [hc] at hadd
  rw [mainIteration_word_eq l w rest hne hbytes hargs hstdin]
  by_cases hh : w = strHistory
  · rw [execute_command_history _ _ _ _ 0 h0 (by rw [hc]; exact hh)]
    refine ⟨_, rfl, by simpa using hargs, rfl, ringHolds_congr hadd rfl rfl rfl, ?_, ?_⟩
    · have := hforks.1
      simp only [print_history, add_to_history]
      omega
    · exact hforks.2
  · obtain ⟨pid, fs, hf⟩ : ∃ pid fs, l.g.forks = pid :: fs := by
      cases hfk : l.g.forks with
      | nil => have := hforks.1; simp [hfk] at this
      | cons pid fs => exact ⟨pid, fs, rfl⟩
    obtain ⟨g2, hg2, e1, e2, e3, e4, e5⟩ := execute_command_launch
      (w ++ NUL :: l.inputBuffer.drop (w.length + 1)) ((l.args.set 0 (some 0)).set 1 none)
      l.background
      (add_to_history (w ++ NUL :: l.inputBuffer.drop (w.length + 1))
        { l.g with stdin := rest, out := l.g.out ++ [.prompt] })
      0 pid fs h0 (by rw [hc]; exact hh) (by rw [hc]; exact hexit) hf
      (hforks.2 pid (by simp [hf]))
    rw [hg2]
    refine ⟨_, rfl, by simpa using hargs, by simpa [add_to_history] using e4,
      ringHolds_congr hadd e1 e2 e3, ?_, ?_⟩
    · have := hforks.1
      simp only [hf, List.length_cons] at this
      simp only [e5]
      omega
    · intro p hp
      simp only [e5] at hp
      exact hforks.2 p (by simp [hf, hp])


theorem isCommandWord_history : IsCommandWord strHistory := by
  refine ⟨by decide, by decide, by decide, by decide⟩

theorem mainIteration_history (l : Locals) (rest : List ReadResult)
    (lines : List (List Byte)) (hargs : l.args.length = MAX_ARGS)
    (hstdin : l.g.stdin = .data lineHistory :: rest) (hring : RingHolds lines l.g) :
    ∃ l1, mainIteration l = .ok l1 ∧
      l1.g.out = l.g.out ++ Event.prompt ::
        (lastLines (lines ++ [strHistory])).map fun p => Event.historyLine p.1 p.2 := by
  obtain ⟨hne, hlen, hbytes, _⟩ := isCommandWord_history
  have hnul : NUL ∉ strHistory := by decide
  have hc : cstr (strHistory ++ NUL :: l.inputBuffer.drop (strHistory.length + 1)) 0
      = strHistory := cstr_terminated strHistory _ hnul
  have h0 : ((l.args.set 0 (some 0)).set 1 none).getD 0 none = some 0 := by
    cases hl : l.args with
    | nil => simp [hl, MAX_ARGS] at hargs
    | cons a as => cases as <;> simp
  have hadd := ringHolds_add lines { l.g with stdin := rest, out := l.g.out ++ [.prompt] }
    (strHistory ++ NUL :: l.inputBuffer.drop (strHistory.length + 1))
    (ringHolds_congr hring rfl rfl rfl) (by rw [hc]; exact hlen)
  rw [hc] at hadd
  rw [mainIteration_word_eq l strHistory rest hne hbytes hargs hstdin,
    execute_command_history _ _ _ _ 0 h0 hc]
  refine ⟨_, rfl, ?_⟩
  simp only [print_history, historyLines_of_ringHolds _ _ hadd, add_to_history_out]
  simp

/-- C7 amended: from a fresh interpreter state, after three one-word command lines (none of
them `exit`) went through the dispatcher loop with `fork` succeeding, the loop is still
running, and the line `history` then makes the built-in print four entries: those three
commands with indices 0, 1, 2 in submission order, and `history` itself with index 3. -/
theorem history_builtin_lists_commands_and_itself (w1 w2 w3 inputBuffer : List Byte)
    (args : List (Option Nat)) (background : Int) (more : List ReadResult)
    (forks : List Int)
    (h1 : IsCommandWord w1) (h2 : IsCommandWord w2) (h3 : IsCommandWord w3)
    (hargs : args.length = MAX_ARGS)
    (hforks : 3 ≤ forks.length ∧ ∀ p ∈ forks, 0 < p) :
    ∃ l3 l4,
      mainLoop 3 { inputBuffer := inputBuffer, args := args, background := background,
                   g := Shell.initial
                     (.data (w1 ++ [NL]) :: .data (w2 ++ [NL]) :: .data (w3 ++ [NL]) ::
                       .data lineHistory :: more) forks } = .ok l3 ∧
      mainIteration l3 = .ok l4 ∧
      l4.g.out = l3.g.out ++
        [.prompt, .historyLine 0 w1, .historyLine 1 w2, .historyLine 2 w3,
         .historyLine 3 strHistory] := by
  obtain ⟨l1, e1, a1, s1, r1, f1⟩ := mainIteration_word
    { inputBuffer := inputBuffer, args := args, background := background,
      g := Shell.initial
        (.data (w1 ++ [NL]) :: .data (w2 ++ [NL]) :: .data (w3 ++ [NL]) ::
          .data lineHistory :: more) forks }
    w1 _ [] 2 h1 hargs rfl (ringHolds_initial _ forks) hforks
  obtain ⟨l2, e2, a2, s2, r2, f2⟩ := mainIteration_word l1 w2 _ _ 1 h2 a1 s1 r1 f1
  obtain ⟨l3, e3, a3, s3, r3, _⟩ := mainIteration_word l2 w3 _ _ 0 h3 a2 s2 r2 f2
  obtain ⟨l4, e4, o4⟩ := mainIteration_history l3 more _ a3 s3 r3
  refine ⟨l3, l4, ?_, e4, ?_⟩
  · simp only [mainLoop, e1, e2, e3]
  · rw [o4]
    rfl

/-- C7 amended, for the lines `ls`, `pwd`, `date` and the process ids 100, 101, 102. -/
theorem history_builtin_lists_commands_and_itself_witness :
    ∃ l3 l4,
      mainLoop 3 { inputBuffer := List.replicate MAX_LINE NUL,
                   args := List.replicate MAX_ARGS none, background := 0,
                   g := Shell.initial
                     (.data (strLs ++ [NL]) :: .data (strPwd ++ [NL]) ::
                       .data (strDate ++ [NL]) :: .data lineHistory :: []) [100, 101, 102] }
        = .ok l3 ∧
      mainIteration l3 = .ok l4 ∧
      l4.g.out = l3.g.out ++
        [.prompt, .historyLine 0 strLs, .historyLine 1 strPwd, .historyLine 2 strDate,
         .historyLine 3 strHistory] :=
  history_builtin_lists_commands_and_itself strLs strPwd strDate (List.replicate MAX_LINE NUL)
    (List.replicate MAX_ARGS none) 0 [] [100, 101, 102]
    ⟨by decide, by decide, by decide, by decide⟩ ⟨by decide, by decide, by decide, by decide⟩
    ⟨by decide, by decide, by decide, by decide⟩ (by decide) ⟨by decide, by decide⟩

/-- C11 at a failing input: a line of 67 bytes with 33 one-letter words makes `setup` write
`args[32]`, outside the 32-slot array; with 32 such words the sentinel is the write that
lands on `args[32]`. -/
theorem setup_overflows_args :
    lineManyWords.length ≤ MAX_LINE ∧
    setup (.data lineManyWords) (List.replicate MAX_LINE NUL) (List.replicate MAX_ARGS none) 0
      = .fault ∧
    setup (.data ((List.replicate 32 [97, SP]).flatten ++ [NL])) (List.replicate MAX_LINE NUL)
        (List.replicate MAX_ARGS none) 0
      = .fault := by
  decide


/-! ## handle_sigint and the history cursor -/

/-- C18: with the foreground slot empty (`foreground_pid = -1`) `handle_sigint` changes
nothing at all (no `kill`, nothing printed, `foreground_pid` and the history as before);
with the slot holding `p > 0` it sends SIGKILL to `p` and to no other process, prints the
notice, sets the slot to `-1` and leaves the history as it was. -/
theorem handle_sigint_effect (g : Shell) :
    (g.foreground_pid = -1 → handle_sigint g = g) ∧
    (0 < g.foreground_pid →
      handle_sigint g = { g with foreground_pid := -1,
                                 out := g.out ++ [.killed g.foreground_pid,
                                                  .foregroundTerminated] } ∧
      (handle_sigint g).foreground_pid = -1 ∧
      (∀ q, Event.killed q ∈ (handle_sigint g).out → Event.killed q ∈ g.out ∨
        q = g.foreground_pid) ∧
      (handle_sigint g).history = g.history ∧
      (handle_sigint g).history_index = g.history_index ∧
      (handle_sigint g).history_size = g.history_size) := by
  constructor
  · intro h
    have : ¬ g.foreground_pid > 0 := by omega
    simp [handle_sigint, this]
  · intro h
    have h1 : g.foreground_pid > 0 := h
    have e : handle_sigint g =
        { g with foreground_pid := -1,
                 out := g.out ++ [.killed g.foreground_pid, .foregroundTerminated] } := by
      simp [handle_sigint, h1]
    refine ⟨e, ?_, ?_, ?_, ?_, ?_⟩ <;> rw [e]
    intro q hq
    simp only [List.mem_append, List.mem_cons, Event.killed.injEq, List.mem_singleton,
      reduceCtorEq, or_false, List.not_mem_nil] at hq
    exact hq

/-- C18 in the initial state (slot empty) and in a state whose slot holds process 42. -/
theorem handle_sigint_effect_witness :
    handle_sigint (Shell.initial [] []) = Shell.initial [] [] ∧
    (handle_sigint { Shell.initial [] [] with foreground_pid := 42 }).foreground_pid = -1 ∧
    (handle_sigint { Shell.initial [] [] with foreground_pid := 42 }).out
      = [.killed 42, .foregroundTerminated] :=
  ⟨(handle_sigint_effect (Shell.initial [] [])).1 (by decide),
   ((handle_sigint_effect { Shell.initial [] [] with foreground_pid := 42 }).2
      (by decide)).2.1,
   by rw [((handle_sigint_effect { Shell.initial [] [] with foreground_pid := 42 }).2
      (by decide)).1]; rfl⟩


theorem runSetup_history (l : Locals) (g1 : Shell) (h : (runSetup l).shell? = some g1) :
    g1.history = l.g.history ∧ g1.history_index = l.g.history_index ∧
    g1.history_size = l.g.history_size := by
  unfold runSetup readStdin at h
  cases hs : l.g.stdin with
  | nil =>
    simp only [hs] at h
    cases hr : setup .eof l.inputBuffer l.args l.background with
    | exited status =>
      simp only [hr, Outcome.shell?] at h
      cases Option.some.inj h
      split <;> simp
    | fault => simp [hr, Outcome.shell?] at h
    | returned buf args bg =>
      simp only [hr, Outcome.shell?] at h
      cases Option.some.inj h
      simp
  | cons r rest =>
    simp only [hs] at h
    cases hr : setup r l.inputBuffer l.args l.background with
    | exited status =>
      simp only [hr, Outcome.shell?] at h
      cases Option.some.inj h
      split <;> simp
    | fault => simp [hr, Outcome.shell?] at h
    | returned buf args bg =>
      simp only [hr, Outcome.shell?] at h
      cases Option.some.inj h
      simp

theorem execute_history_command_history (index : Int) (args : List (Option Nat))
    (background : Int) (uninit : List Byte) (g g1 : Shell)
    (h : (execute_history_command index args background uninit g).shell? = some g1) :
    g1.history = g.history ∧ g1.history_index = g.history_index ∧
    g1.history_size = g.history_size := by
  unfold execute_history_command at h
  split at h
  · simp only [Outcome.shell?] at h
    cases Option.some.inj h
    simp
  · exact runSetup_history _ g1 h

/-- C17: the predicate on cursor and count holds in the initial state and, when it holds
before, it holds after `add_to_history`, after `print_history` and in whatever state
`execute_history_command` leaves; and when `history_size = 10`, `add_to_history` writes the
new entry into the slot of logical index 0, which is the slot under the cursor, and every
other slot keeps its contents. -/
theorem ring_invariant_preserved (g : Shell) (cmd : List Byte) (index : Int)
    (args : List (Option Nat)) (background : Int) (uninit : List Byte)
    (stdin : List ReadResult) (forks : List Int) (hinv : RingInv g) :
    RingInv (Shell.initial stdin forks) ∧
    RingInv (add_to_history cmd g) ∧
    RingInv (print_history g) ∧
    (∀ g1, (execute_history_command index args background uninit g).shell? = some g1 →
      RingInv g1) ∧
    (g.history_size = HISTORY_COUNT →
      historySlot g 0 = g.history_index ∧
      (add_to_history cmd g).history
        = g.history.set (historySlot g 0).toNat
            ((strncpy cmd MAX_LINE).set (MAX_LINE - 1) NUL) ∧
      (add_to_history cmd g).history.length = g.history.length ∧
      ∀ j, j ≠ (historySlot g 0).toNat →
        (add_to_history cmd g).history.getD j [] = g.history.getD j []) := by
  obtain ⟨⟨hi0, hi1⟩, ⟨hs0, hs1⟩, himp⟩ := hinv
  simp only [HISTORY_COUNT, Nat.cast_ofNat] at hi1 hs1 himp
  refine ⟨?_, ?_, ?_, ?_, ?_⟩
  · simp [RingInv, Shell.initial, HISTORY_COUNT]
  · have hmod : (g.history_index + 1).tmod 10 = (g.history_index + 1) % 10 :=
      Int.tmod_eq_emod (by omega) (by decide)
    simp only [RingInv, add_to_history, HISTORY_COUNT, Nat.cast_ofNat, hmod]
    refine ⟨⟨by omega, by omega⟩, ⟨by split <;> omega, by split <;> omega⟩, ?_⟩
    split
    · intro h
      have := himp (by omega)
      omega
    · intro h
      omega
  · simpa [RingInv, print_history, HISTORY_COUNT] using
      (⟨⟨hi0, hi1⟩, ⟨hs0, hs1⟩, himp⟩ : (0 ≤ g.history_index ∧ g.history_index < 10) ∧
        (0 ≤ g.history_size ∧ g.history_size ≤ 10) ∧
        (g.history_size < 10 → g.history_index = g.history_size))
  · intro g1 h1
    obtain ⟨_, e2, e3⟩ := execute_history_command_history index args background uninit g g1 h1
    simp only [RingInv, HISTORY_COUNT, Nat.cast_ofNat, e2, e3]
    exact ⟨⟨hi0, hi1⟩, ⟨hs0, hs1⟩, himp⟩
  · intro hfull
    simp only [HISTORY_COUNT, Nat.cast_ofNat] at hfull
    have hslot : historySlot g 0 = g.history_index := by
      simp only [historySlot, HISTORY_COUNT, Nat.cast_ofNat]
      rw [Int.tmod_eq_emod (by omega) (by decide)]
      omega
    refine ⟨hslot, ?_, ?_, ?_⟩
    · simp [add_to_history, hslot]
    · simp [add_to_history]
    · intro j hj
      rw [hslot] at hj
      simp only [add_to_history]
      exact getD_set_other _ _ _ _ _ (fun e => hj e.symm)


/-- C17 at a full ring whose cursor is at slot 3: one more `add_to_history` keeps the
predicate, and the slot of logical index 0 is slot 3, the one that is overwritten. -/
theorem ring_invariant_preserved_witness :
    RingInv wrappedRing ∧
    RingInv (add_to_history [120, NUL] wrappedRing) ∧
    historySlot wrappedRing 0 = 3 ∧
    (add_to_history [120, NUL] wrappedRing).history
      = wrappedRing.history.set 3 ((strncpy [120, NUL] MAX_LINE).set (MAX_LINE - 1) NUL) :=
  have hinv : RingInv wrappedRing := by unfold RingInv; decide
  ⟨hinv,
   (ring_invariant_preserved wrappedRing [120, NUL] 0 (List.replicate MAX_ARGS none) 0
      (List.replicate MAX_LINE NUL) [] [] hinv).2.1,
   ((ring_invariant_preserved wrappedRing [120, NUL] 0 (List.replicate MAX_ARGS none) 0
      (List.replicate MAX_LINE NUL) [] [] hinv).2.2.2.2 (by decide)).1,
   ((ring_invariant_preserved wrappedRing [120, NUL] 0 (List.replicate MAX_ARGS none) 0
      (List.replicate MAX_LINE NUL) [] [] hinv).2.2.2.2 (by decide)).2.1⟩

/-! ## Blank lines -/

theorem setupLoop_blanks (rest : List Byte) :
    ∀ (pre X : List Byte) (a : List (Option Nat)) (bg : Int) (ct : Nat),
      (∀ b ∈ rest, isBlank b = true) →
      setupLoop (rest.length + 1) pre.length ⟨pre ++ rest ++ NL :: X, a, bg, none, ct⟩
        = setupStep ⟨pre ++ rest ++ NL :: X, a, bg, none, ct⟩ (pre ++ rest).length := by
  induction rest with
  | nil =>
    intro pre X a bg ct _
    simp [setupLoop]
  | cons c r ih =>
    intro pre X a bg ct hw
    have hb := hw c (List.mem_cons_self c r)
    have hbuf : pre ++ c :: r ++ NL :: X = pre ++ c :: (r ++ NL :: X) := by simp
    have hnext : pre ++ c :: (r ++ NL :: X) = (pre ++ [c]) ++ r ++ NL :: X := by simp
    have hpl : pre.length + 1 = (pre ++ [c]).length := by simp
    have hlen : (pre ++ c :: r).length = (pre ++ [c] ++ r).length := by simp
    rw [List.length_cons, setupLoop_succ]
    rw [hbuf, setupStep_blank_idle pre _ c a bg ct hb, Option.some_bind, hnext, hpl,
      ih (pre ++ [c]) X a bg ct (fun b hb => hw b (List.mem_cons_of_mem c hb)), hlen]

theorem setup_blank (blanks inputBuffer : List Byte) (args : List (Option Nat))
    (background : Int) (hb : ∀ b ∈ blanks, isBlank b = true) :
    setup (.data (blanks ++ [NL])) inputBuffer args background
      = .returned (blanks ++ NUL :: inputBuffer.drop (blanks.length + 1))
          (args.set 0 none) background := by
  have h := setupLoop_blanks blanks [] (inputBuffer.drop (blanks.length + 1)) args
    background 0 hb
  simp only [List.nil_append, List.length_nil] at h
  have hs := setupStep_newline_idle blanks (inputBuffer.drop (blanks.length + 1)) args
    background 0
  simp only [setup, List.length_append, List.length_singleton, List.append_assoc,
    List.singleton_append]
  rw [h, hs]
  simp [storeArg, MAX_ARGS]

/-- C15: for a line of spaces and tabs ended by a newline (the bare newline included), one
iteration of the loop of `main` prints the prompt, consumes the line and returns to the
loop with an empty argument vector; the history slots, cursor and count, the foreground
slot, the pending `fork` results and the child table are as before and nothing but the
prompt is printed, so no built-in ran and no process was created. -/
theorem blank_line_is_skipped (blanks : List Byte) (l : Locals) (rest : List ReadResult)
    (_hlen : (blanks ++ [NL]).length ≤ MAX_LINE)
    (hblank : ∀ b ∈ blanks, isBlank b = true)
    (hstdin : l.g.stdin = .data (blanks ++ [NL]) :: rest) :
    mainIteration l
      = .ok { inputBuffer := blanks ++ NUL :: l.inputBuffer.drop (blanks.length + 1),
              args := l.args.set 0 none, background := l.background,
              g := { l.g with stdin := rest, out := l.g.out ++ [.prompt] } } ∧
    visible (argv (blanks ++ NUL :: l.inputBuffer.drop (blanks.length + 1))
      (l.args.set 0 none)) = [] := by
  have h0 : (l.args.set 0 none).getD 0 none = none := by
    cases l.args <;> simp
  refine ⟨?_, ?_⟩
  · simp only [mainIteration, runSetup, readStdin, hstdin, setup_blank _ _ _ _ hblank, h0]
  · cases l.args <;> simp [argv, visible]

/-- C15 for the line of two spaces, a tab and a newline, in the state after `echo hi`. -/
theorem blank_line_is_skipped_witness :
    mainIteration { inputBuffer := strEcho ++ NUL :: strHi ++ NUL :: List.replicate 120 NUL,
                    args := some 0 :: some 5 :: List.replicate 30 none, background := 0,
                    g := { add_to_history strEcho (Shell.initial [] [])
                           with stdin := [.data ([SP, SP, TAB] ++ [NL])] } }
      = .ok { inputBuffer := [SP, SP, TAB] ++ NUL :: List.drop 4
                (strEcho ++ NUL :: strHi ++ NUL :: List.replicate 120 NUL),
              args := none :: some 5 :: List.replicate 30 none, background := 0,
              g := { add_to_history strEcho (Shell.initial [] [])
                     with stdin := [], out := [.prompt] } } ∧
    visible (argv ([SP, SP, TAB] ++ NUL :: List.drop 4
        (strEcho ++ NUL :: strHi ++ NUL :: List.replicate 120 NUL))
      (none :: some 5 :: List.replicate 30 none)) = [] :=
  blank_line_is_skipped [SP, SP, TAB]
    { inputBuffer := strEcho ++ NUL :: strHi ++ NUL :: List.replicate 120 NUL,
      args := some 0 :: some 5 :: List.replicate 30 none, background := 0,
      g := { add_to_history strEcho (Shell.initial [] [])
             with stdin := [.data ([SP, SP, TAB] ++ [NL])] } }
    [] (by decide) (by decide) rfl

/-! ## redirect_io: what a successful call leaves -/

theorem redirectTo_args (fs : List Byte → OpenMode → Bool) (stream : Nat) (mode : OpenMode)
    (i : Nat) (args args1 : List (Option (List Byte))) (b b1 : List Binding)
    (h : redirectTo fs stream mode i args b = some (args1, b1)) : args1 = args.set i none := by
  unfold redirectTo at h
  split at h
  · simp at h
  · split at h
    · simp only [Option.some.injEq, Prod.mk.injEq] at h
      exact h.1.symm
    · simp at h

theorem redirectLoop_success (fs : List Byte → OpenMode → Bool)
    (rest : List (Option (List Byte))) :
    ∀ (pre : List (Option (List Byte))) (n : Nat) (b : List Binding),
      rest.length ≤ n →
      (redirectLoop fs n pre.length (pre ++ rest) b).ret = 0 →
      (redirectLoop fs n pre.length (pre ++ rest) b).args = pre ++ nullOperators rest := by
  induction rest with
  | nil =>
    intro pre n b _ _
    cases n with
    | zero => simp [redirectLoop, nullOperators]
    | succ m =>
      rw [redirectLoop_succ]
      simp [getD_past_end, nullOperators]
  | cons a r ih =>
    intro pre n b hn hret
    cases n with
    | zero => simp at hn
    | succ m =>
      have hm : r.length ≤ m := by simpa using hn
      rw [redirectLoop_succ, getD_at_length] at hret ⊢
      cases a with
      | none => rfl
      | some t =>
        have hnext : ∀ x : Option (List Byte), pre ++ x :: r = (pre ++ [x]) ++ r := by
          intro x; simp
        have hpl : ∀ x : Option (List Byte), pre.length + 1 = (pre ++ [x]).length := by
          intro x; simp
        have key : ∀ (stream : Nat) (mode : OpenMode), isRedirOp t = true →
            (match redirectTo fs stream mode pre.length (pre ++ some t :: r) b with
              | none => ({ ret := -1, args := pre ++ some t :: r, bindings := b } : Redirected)
              | some (args1, b1) => redirectLoop fs m (pre.length + 1) args1 b1).ret = 0 →
            (match redirectTo fs stream mode pre.length (pre ++ some t :: r) b with
              | none => ({ ret := -1, args := pre ++ some t :: r, bindings := b } : Redirected)
              | some (args1, b1) => redirectLoop fs m (pre.length + 1) args1 b1).args
              = pre ++ nullOperators (some t :: r) := by
          intro stream mode hop h
          cases hr : redirectTo fs stream mode pre.length (pre ++ some t :: r) b with
          | none => simp [hr] at h
          | some p =>
            obtain ⟨args1, b1⟩ := p
            have ha := redirectTo_args fs stream mode _ _ _ _ _ hr
            rw [set_at_length] at ha
            subst ha
            simp only [hr] at h ⊢
            rw [hnext none, hpl none] at h ⊢
            rw [ih (pre ++ [none]) m b1 hm h]
            simp [nullOperators, hop]
        show (if t = tokIn then _ else _ : Redirected).args = _
        have hret1 : (if t = tokIn then _ else _ : Redirected).ret = 0 := hret
        by_cases h1 : t = tokIn
        · rw [if_pos h1] at hret1 ⊢
          exact key 0 .rdonly (by simp [isRedirOp, h1]) hret1
        by_cases h2 : t = tokOut
        · rw [if_neg h1, if_pos h2] at hret1 ⊢
          exact key 1 .truncate (by simp [isRedirOp, h2]) hret1
        by_cases h3 : t = tokAppend
        · rw [if_neg h1, if_neg h2, if_pos h3] at hret1 ⊢
          exact key 1 .append (by simp [isRedirOp, h3]) hret1
        by_cases h4 : t = tokErr
        · rw [if_neg h1, if_neg h2, if_neg h3, if_pos h4] at hret1 ⊢
          exact key 2 .truncate (by simp [isRedirOp, h4]) hret1
        · rw [if_neg h1, if_neg h2, if_neg h3, if_neg h4] at hret1 ⊢
          have hop := (isRedirOp_false_iff t).2 ⟨h1, h2, h3, h4⟩
          rw [hnext (some t), hpl (some t)] at hret1 ⊢
          rw [ih (pre ++ [some t]) m b hm hret1]
          simp [nullOperators, hop]

theorem redirectLoop_no_operator (fs : List Byte → OpenMode → Bool)
    (rest : List (Option (List Byte))) :
    ∀ (pre : List (Option (List Byte))) (n : Nat) (b : List Binding),
      (∀ t ∈ visible rest, isRedirOp t = false) →
      redirectLoop fs n pre.length (pre ++ rest) b
        = { ret := 0, args := pre ++ rest, bindings := b } := by
  induction rest with
  | nil =>
    intro pre n b _
    cases n with
    | zero => rfl
    | succ m =>
      rw [redirectLoop_succ]
      simp [getD_past_end]
  | cons a r ih =>
    intro pre n b hno
    cases n with
    | zero => rfl
    | succ m =>
      rw [redirectLoop_succ, getD_at_length]
      cases a with
      | none => rfl
      | some t =>
        have hop := hno t (by simp [visible])
        obtain ⟨h1, h2, h3, h4⟩ := (isRedirOp_false_iff t).1 hop
        show (if t = tokIn then _ else _ : Redirected) = _
        rw [if_neg h1, if_neg h2, if_neg h3, if_neg h4]
        have hnext : pre ++ some t :: r = (pre ++ [some t]) ++ r := by simp
        have hpl : pre.length + 1 = (pre ++ [some t]).length := by simp
        rw [hnext, hpl]
        exact ih (pre ++ [some t]) m b (fun u hu => hno u (by simp [visible, hu]))


theorem takeWhile_all {α : Type} (p : α → Bool) (l : List α) :
    ∀ t ∈ l.takeWhile p, p t = true := by
  intro t ht
  exact List.mem_takeWhile_imp ht

/-- C13: when `redirect_io` returns 0, what it leaves visible to the launched program is the
part of the original list that stands before its first redirection operator, so the list
holds none of `<`, `>`, `>>`, `2>` and no token from a position after one of them; and
running `redirect_io` again, on the array it left or on a fresh copy of the visible list,
opens no file, binds no stream, returns 0 and leaves the list as it is. -/
theorem redirect_io_strips_and_is_idempotent (fs : List Byte → OpenMode → Bool)
    (args : List (Option (List Byte))) (hret : (redirect_io fs args).ret = 0) :
    visible (redirect_io fs args).args = (visible args).takeWhile (fun t => !isRedirOp t) ∧
    (∀ t ∈ visible (redirect_io fs args).args, isRedirOp t = false) ∧
    redirect_io fs (redirect_io fs args).args
      = { ret := 0, args := (redirect_io fs args).args, bindings := [] } ∧
    redirect_io fs ((visible (redirect_io fs args).args).map some ++ [none])
      = { ret := 0, args := (visible (redirect_io fs args).args).map some ++ [none],
          bindings := [] } := by
  have hargs : (redirect_io fs args).args = nullOperators args := by
    have := redirectLoop_success fs args [] args.length [] (Nat.le_refl _) hret
    simpa [redirect_io] using this
  have hvis : visible (redirect_io fs args).args
      = (visible args).takeWhile (fun t => !isRedirOp t) := by
    rw [hargs, visible_nullOperators]
  have hno : ∀ t ∈ visible (redirect_io fs args).args, isRedirOp t = false := by
    intro t ht
    rw [hvis] at ht
    have := takeWhile_all _ _ t ht
    simpa using this
  have hvis2 : visible ((visible (redirect_io fs args).args).map some ++ [none])
      = visible (redirect_io fs args).args := by
    generalize visible (redirect_io fs args).args = v
    induction v with
    | nil => rfl
    | cons a v ih => simp [visible, ih]
  refine ⟨hvis, hno, ?_, ?_⟩
  · have := redirectLoop_no_operator fs (redirect_io fs args).args []
      (redirect_io fs args).args.length [] hno
    simpa [redirect_io] using this
  · have := redirectLoop_no_operator fs
      ((visible (redirect_io fs args).args).map some ++ [none]) []
      ((visible (redirect_io fs args).args).map some ++ [none]).length []
      (by rw [hvis2]; exact hno)
    simpa [redirect_io] using this

/-- C13 at `ls -l > out.txt`: the visible list is `ls -l`, and a second run changes
nothing. -/
theorem redirect_io_strips_and_is_idempotent_witness :
    visible (redirect_io (fun _ _ => true)
        [some strLs, some strDashL, some tokOut, some strOutTxt, none]).args
      = [strLs, strDashL] ∧
    redirect_io (fun _ _ => true) [some strLs, some strDashL, none, some strOutTxt, none]
      = { ret := 0, args := [some strLs, some strDashL, none, some strOutTxt, none],
          bindings := [] } :=
  ⟨(redirect_io_strips_and_is_idempotent (fun _ _ => true)
      [some strLs, some strDashL, some tokOut, some strOutTxt, none] (by decide)).1,
   (redirect_io_strips_and_is_idempotent (fun _ _ => true)
      [some strLs, some strDashL, some tokOut, some strOutTxt, none] (by decide)).2.2.1⟩

/-! ## The PATH search -/

theorem pathDirs_nil : pathDirs [] = [] := by
  simp [pathDirs]

theorem pathDirs_colon (c : Byte) (r : List Byte) (hc : (c == COLON) = true) :
    pathDirs (c :: r) = pathDirs r := by
  simp only [pathDirs, List.splitOnP_cons, hc, if_true]
  simp

theorem strtok_colon (c : Byte) (r : List Byte) (hc : (c == COLON) = true) :
    strtok (c :: r) = strtok r := by
  simp only [strtok, List.dropWhile_cons, hc, if_true]

theorem strtok_spec (rest : List Byte) :
    match strtok rest with
    | none => pathDirs rest = []
    | some (d, rest1) => pathDirs rest = d :: pathDirs rest1 ∧ rest1.length < rest.length := by
  induction rest with
  | nil => simp [strtok, pathDirs_nil]
  | cons c r ih =>
    cases hc : (c == COLON) with
    | true =>
      rw [strtok_colon c r hc, pathDirs_colon c r hc]
      cases hs : strtok r with
      | none => simpa [hs] using ih
      | some p =>
        obtain ⟨d, rest1⟩ := p
        simp only [hs] at ih ⊢
        exact ⟨ih.1, by have := ih.2; simp only [List.length_cons]; omega⟩
    | false =>
      have hne : (c != COLON) = true := by simp [bne, hc]
      have hdrop : (c :: r).dropWhile (fun b => b == COLON) = c :: r := by
        simp [List.dropWhile_cons, hc]
      have hsplit := List.takeWhile_append_dropWhile (fun b => b != COLON) (c :: r)
      have htw : ∀ x ∈ (c :: r).takeWhile (fun b => b != COLON), ¬ (x == COLON) = true := by
        intro x hx
        have := List.mem_takeWhile_imp hx
        simpa using this
      have htwne : (c :: r).takeWhile (fun b => b != COLON) ≠ [] := by
        simp [List.takeWhile_cons, hne]
      have hst : strtok (c :: r) = some ((c :: r).takeWhile (fun b => b != COLON),
          ((c :: r).dropWhile (fun b => b != COLON)).drop 1) := by
        simp only [strtok, hdrop]
        simp
      rw [hst]
      simp only
      cases hdw : (c :: r).dropWhile (fun b => b != COLON) with
      | nil =>
        rw [hdw, List.append_nil] at hsplit
        refine ⟨?_, by simp⟩
        rw [hsplit] at htw
        simp only [List.drop_nil, pathDirs_nil]
        rw [hsplit]
        simp only [pathDirs, List.splitOnP_eq_single _ _ htw]
        simp
      | cons sep as =>
        have hsep : (sep == COLON) = true := by
          have h := List.head_dropWhile_not (fun b => b != COLON) (c :: r) (by simp [hdw])
          simp only [hdw, List.head_cons] at h
          simpa using h
        rw [hdw] at hsplit
        refine ⟨?_, ?_⟩
        · simp only [List.drop_succ_cons, List.drop_zero]
          have e : pathDirs (c :: r)
              = pathDirs ((c :: r).takeWhile (fun b => b != COLON) ++ sep :: as) := by
            rw [hsplit]
          rw [e]
          simp only [pathDirs, List.splitOnP_first _ _ htw sep hsep]
          cases htk : (c :: r).takeWhile (fun b => b != COLON) with
          | nil => exact absurd htk htwne
          | cons a t => simp
        · have := congrArg List.length hsplit
          simp only [List.length_append, List.length_cons] at this
          simp only [List.drop_succ_cons, List.drop_zero, List.length_cons]
          omega


theorem searchLoop_spec (execOk : List Byte → Bool) (name : List Byte) (n : Nat) :
    ∀ (rest : List Byte) (attempts : List (List Byte)),
      rest.length < n →
      searchLoop execOk name n (strtok rest) attempts
        = some { attempts := attempts ++
                   (tryInOrder execOk ((pathDirs rest).map fun d => snprintfPath d name)).attempts,
                 result :=
                   (tryInOrder execOk ((pathDirs rest).map fun d => snprintfPath d name)).result } := by
  induction n with
  | zero => intro rest attempts h; omega
  | succ m ih =>
    intro rest attempts hlen
    have hspec := strtok_spec rest
    cases hs : strtok rest with
    | none =>
      simp only [hs] at hspec
      simp [searchLoop, hspec, tryInOrder]
    | some p =>
      obtain ⟨d, rest1⟩ := p
      simp only [hs] at hspec
      obtain ⟨hd, hl⟩ := hspec
      simp only [searchLoop, hd, List.map_cons, tryInOrder]
      cases hx : execOk (snprintfPath d name) with
      | true => simp
      | false =>
        simp only [Bool.false_eq_true, if_false]
        rw [ih rest1 (attempts ++ [snprintfPath d name]) (by omega)]
        simp

set_option maxRecDepth 8000 in
/-- C14 as it stands fails: for the PATH value `:/bin` and the name `ls`, with every `execv`
failing, the one path given to `execv` is `/bin/ls`; the empty first field yields no
attempt `/ls`, so there is not one candidate per colon-separated field; and for a
directory of 126 bytes the path given to `execv` is cut after the `/`, the name is lost. -/
theorem path_search_skips_empty_field :
    searchPath (fun _ => false) pathEmptyThenBin strLs
      = some { attempts := [[47, 98, 105, 110, 47, 108, 115]], result := .notFound } ∧
    fieldCandidates pathEmptyThenBin strLs
      = [[47, 108, 115], [47, 98, 105, 110, 47, 108, 115]] ∧
    searchPath (fun _ => false) pathEmptyThenBin strLs
      ≠ some (tryInOrder (fun _ => false) (fieldCandidates pathEmptyThenBin strLs)) ∧
    searchPath (fun _ => false) (List.replicate 126 97) strLs
      = some { attempts := [List.replicate 126 97 ++ [SLASH]], result := .notFound } := by
  decide

/-- C14 amended: for every PATH value and program name the search ends, and the paths the
child gives to `execv` are, in PATH order, `d/name` cut to `MAX_LINE - 1` bytes for each
non-empty field `d` of PATH split on `:`; the attempts stop at the first path whose `execv`
succeeds, and `Command not found` comes only after every one of them has failed. -/
theorem path_search_tries_non_empty_fields (execOk : List Byte → Bool)
    (path name : List Byte) :
    searchPath execOk path name
      = some (tryInOrder execOk (nonEmptyFieldCandidates path name)) := by
  have h := searchLoop_spec execOk name (path.length + 1) path [] (Nat.lt_succ_self _)
  simp only [searchPath, h, List.nil_append]
  rfl

/-! ## The foreground slot -/

theorem execute_command_slot (buf : List Byte) (args : List (Option Nat)) (background : Int)
    (g g1 : Shell) (h : execute_command buf args background g = .ok g1) :
    (background ≠ 0 → g1.foreground_pid = g.foreground_pid) ∧
    (g1.foreground_pid = g.foreground_pid ∨ g1.foreground_pid = -1) := by
  cases h0 : args.getD 0 none with
  | none => simp only [execute_command, h0] at h; cases h
  | some off =>
    by_cases hh : cstr buf off = strHistory
    · simp only [execute_command, h0, hh, if_true, Outcome.ok.injEq] at h
      subst h
      simp [print_history]
    · by_cases he : cstr buf off = strExit
      · have hne : strExit ≠ strHistory := by decide
        by_cases hw : (waitpidAnyNoHang g.children).1 = 0
        · simp only [execute_command, h0, he, hne, hw, if_true, if_false,
            Outcome.ok.injEq] at h
          subst h
          simp
        · simp only [execute_command, h0, he, hne, hw, if_true, if_false] at h
          cases h
      · cases hf : g.forks with
        | nil =>
          simp only [execute_command, h0, hh, he, fork, hf, if_false] at h
          simp at h
        | cons pid fs =>
          by_cases h1 : pid < 0
          · simp only [execute_command, h0, hh, he, fork, hf, h1, if_true, if_false] at h
            cases h
          · by_cases h2 : pid = 0
            · simp only [execute_command, h0, hh, he, fork, hf, h1, h2, if_true, if_false] at h
              cases h
            · by_cases hb : background = 0
              · simp only [execute_command, h0, hh, he, fork, hf, h1, h2, hb, if_true,
                  if_false, Outcome.ok.injEq] at h
                subst h
                simp [hb]
              · simp only [execute_command, h0, hh, he, fork, hf, h1, h2, hb, if_false,
                  Outcome.ok.injEq] at h
                subst h
                simp

theorem launchForeground_slot (buf : List Byte) (args : List (Option Nat)) (g g1 : Shell)
    (pid : Int) (h : launchForeground buf args g = some (pid, g1)) :
    0 < pid ∧ g1.foreground_pid = pid ∧
    execute_command buf args 0 g = .ok (finishForeground pid g1) := by
  cases h0 : args.getD 0 none with
  | none => simp only [launchForeground, h0] at h; cases h
  | some off =>
    by_cases hh : cstr buf off = strHistory
    · simp only [launchForeground, h0, hh, if_true] at h; cases h
    · by_cases he : cstr buf off = strExit
      · simp only [launchForeground, h0, hh, he, if_true, if_false] at h; cases h
      · cases hf : g.forks with
        | nil =>
          simp only [launchForeground, h0, hh, he, fork, hf, if_false] at h
          simp at h
        | cons p fs =>
          by_cases h1 : p < 0
          · simp only [launchForeground, h0, hh, he, fork, hf, h1, if_true, if_false] at h
            cases h
          · by_cases h2 : p = 0
            · simp only [launchForeground, h0, hh, he, fork, hf, h1, h2, if_true,
                if_false] at h
              cases h
            · simp only [launchForeground, h0, hh, he, fork, hf, h1, h2, if_false,
                Option.some.injEq, Prod.mk.injEq] at h
              obtain ⟨hp, hg⟩ := h
              subst hp
              subst hg
              refine ⟨by omega, rfl, ?_⟩
              simp only [execute_command, h0, hh, he, fork, hf, h1, h2, if_true, if_false]
              rfl


theorem handle_sigint_slot (g : Shell)
    (h : g.foreground_pid = -1 ∨ 0 < g.foreground_pid) :
    (handle_sigint g).foreground_pid = -1 := by
  unfold handle_sigint
  split
  · rfl
  · rcases h with h | h
    · exact h
    · omega

theorem slotInv_step (j j1 : Job) (hinv : SlotInv j) (hstep : JobStep j j1) : SlotInv j1 := by
  cases hstep with
  | command buf args background g g1 h =>
    have hg : g.foreground_pid = -1 := hinv
    have := (execute_command_slot buf args background g g1 h).2
    show g1.foreground_pid = -1
    omega
  | launch buf args g g1 pid h =>
    obtain ⟨hp, hf, _⟩ := launchForeground_slot buf args g g1 pid h
    exact ⟨hp, Or.inl hf⟩
  | finish g pid => rfl
  | sigint =>
    cases hph : j.phase with
    | idle =>
      have hg : j.g.foreground_pid = -1 := by
        simpa [SlotInv, hph] using hinv
      simpa [SlotInv, hph] using handle_sigint_slot j.g (Or.inl hg)
    | waiting pid =>
      have hg : 0 < pid ∧ (j.g.foreground_pid = pid ∨ j.g.foreground_pid = -1) := by
        simpa [SlotInv, hph] using hinv
      have hs : (handle_sigint j.g).foreground_pid = -1 :=
        handle_sigint_slot j.g (by omega)
      simp only [SlotInv, hph]
      exact ⟨hg.1, Or.inr hs⟩

theorem slotInv_reach (j0 j : Job) (hinv : SlotInv j0)
    (hreach : Relation.ReflTransGen JobStep j0 j) : SlotInv j := by
  induction hreach with
  | refl => exact hinv
  | tail _ hstep ih => exact slotInv_step _ _ ih hstep

/-- C12: in every state reached from an idle interpreter with `foreground_pid = -1` by
steps of `execute_command` (built-in, background launch, foreground launch in its two
halves) and of `handle_sigint`, the slot is `-1` or the positive process id of the one
child being waited for; it is `-1` whenever no call of `execute_command` is in progress,
after every return of `execute_command`, and right after `handle_sigint`; and a call with
the background flag set returns with the slot as it found it. -/
theorem foreground_slot_invariant (j0 j : Job)
    (hslot : j0.g.foreground_pid = -1) (hidle : j0.phase = .idle)
    (hreach : Relation.ReflTransGen JobStep j0 j) :
    (j.g.foreground_pid = -1 ∨
      ∃ pid, j.phase = .waiting pid ∧ 0 < pid ∧ j.g.foreground_pid = pid) ∧
    (j.phase = .idle → j.g.foreground_pid = -1) ∧
    (handle_sigint j.g).foreground_pid = -1 ∧
    (∀ buf args background g1, j.phase = .idle →
      execute_command buf args background j.g = .ok g1 → g1.foreground_pid = -1) ∧
    (∀ buf args background g1, background ≠ 0 →
      execute_command buf args background j.g = .ok g1 →
      g1.foreground_pid = j.g.foreground_pid) := by
  have h0 : SlotInv j0 := by
    simp only [SlotInv, hidle]
    exact hslot
  have hinv := slotInv_reach j0 j h0 hreach
  have hcases : j.g.foreground_pid = -1 ∨
      ∃ pid, j.phase = .waiting pid ∧ 0 < pid ∧ j.g.foreground_pid = pid := by
    cases hph : j.phase with
    | idle => left; simpa [SlotInv, hph] using hinv
    | waiting pid =>
      have hg : 0 < pid ∧ (j.g.foreground_pid = pid ∨ j.g.foreground_pid = -1) := by
        simpa [SlotInv, hph] using hinv
      rcases hg.2 with h | h
      · exact Or.inr ⟨pid, rfl, hg.1, h⟩
      · exact Or.inl h
  have hidle1 : j.phase = .idle → j.g.foreground_pid = -1 := by
    intro hph
    simpa [SlotInv, hph] using hinv
  refine ⟨hcases, hidle1, ?_, ?_, ?_⟩
  · apply handle_sigint_slot
    rcases hcases with h | ⟨pid, _, hp, h⟩
    · exact Or.inl h
    · exact Or.inr (by omega)
  · intro buf args background g1 hph h
    have := (execute_command_slot buf args background j.g g1 h).2
    have := hidle1 hph
    omega
  · intro buf args background g1 hb h
    exact (execute_command_slot buf args background j.g g1 h).1 hb


/-- C12 in the state reached by launching `ls` in the foreground as child 100: the slot
holds 100, the child waited for, and `handle_sigint` empties it. -/
theorem foreground_slot_invariant_witness :
    (jobWaiting.g.foreground_pid = -1 ∨
      ∃ pid, jobWaiting.phase = .waiting pid ∧ 0 < pid ∧
        jobWaiting.g.foreground_pid = pid) ∧
    (jobWaiting.phase = .idle → jobWaiting.g.foreground_pid = -1) ∧
    (handle_sigint jobWaiting.g).foreground_pid = -1 ∧
    (∀ buf args background g1, jobWaiting.phase = .idle →
      execute_command buf args background jobWaiting.g = .ok g1 →
      g1.foreground_pid = -1) ∧
    (∀ buf args background g1, background ≠ 0 →
      execute_command buf args background jobWaiting.g = .ok g1 →
      g1.foreground_pid = jobWaiting.g.foreground_pid) :=
  foreground_slot_invariant jobStart jobWaiting rfl rfl
    (Relation.ReflTransGen.single
      (JobStep.launch (strLs ++ [NUL]) [some 0, none] jobStart.g jobWaiting.g 100
        (by decide)))

/-! ## Lines that contain `&` -/

theorem beforeAmp_nul_free (cur : List Byte) (h : NUL ∉ cur) : NUL ∉ beforeAmp cur := by
  intro hm
  exact h ((List.takeWhile_sublist _).subset hm)

theorem zap_split (cur : List Byte) :
    ∃ t, cur.map zapByte ++ [NUL] = beforeAmp cur ++ NUL :: t := by
  induction cur with
  | nil => exact ⟨[], rfl⟩
  | cons c cs ih =>
    obtain ⟨t, ht⟩ := ih
    by_cases hc : c = AMP
    · refine ⟨cs.map zapByte ++ [NUL], ?_⟩
      simp [beforeAmp, zapByte, hc]
    · refine ⟨t, ?_⟩
      have hb : (c != AMP) = true := by simp [hc]
      simp only [List.map_cons, List.cons_append, beforeAmp, List.takeWhile_cons, hb, if_true,
        zapByte, hc, if_false]
      rw [ht]
      rfl

theorem inProgressAmp_closed {pre : List Byte} {st : Nat} {cur : List Byte}
    (h : InProgressAmp pre (some st) cur) : Closed (pre ++ [NUL]) st (beforeAmp cur) := by
  obtain ⟨hne, hnul, hdrop⟩ := h
  obtain ⟨t, ht⟩ := zap_split cur
  refine ⟨beforeAmp_nul_free cur hnul, t, ?_⟩
  have hle : st ≤ pre.length := by
    by_contra hc
    have h0 : pre.drop st = [] := List.drop_eq_nil_of_le (by omega)
    rw [h0] at hdrop
    cases cur with
    | nil => exact hne rfl
    | cons a as => simp at hdrop
  rw [List.drop_append_of_le_length hle, hdrop, ht]

theorem inProgressAmp_extend {pre : List Byte} {start : Option Nat} {cur : List Byte}
    (c : Byte) (hc : c ≠ NUL) (h : InProgressAmp pre start cur) :
    InProgressAmp (pre ++ [zapByte c]) (some (start.getD pre.length)) (cur ++ [c]) := by
  cases start with
  | none =>
    have h0 : cur = [] := h
    subst h0
    refine ⟨by simp, ?_, by simp⟩
    simpa using fun e => hc e.symm
  | some st =>
    obtain ⟨hne, hnul, hdrop⟩ := h
    have hle : st ≤ pre.length := by
      by_contra hx
      have h0 : pre.drop st = [] := List.drop_eq_nil_of_le (by omega)
      rw [h0] at hdrop
      cases cur with
      | nil => exact hne rfl
      | cons a as => simp at hdrop
    refine ⟨by simp, ?_, ?_⟩
    · simp only [List.mem_append, List.mem_singleton, not_or]
      exact ⟨hnul, fun e => hc e.symm⟩
    · simp only [Option.getD_some]
      rw [List.drop_append_of_le_length hle, hdrop]
      simp


theorem setupStep_token (pre X : List Byte) (c : Byte) (a : List (Option Nat))
    (bg : Int) (start : Option Nat) (ct : Nat) (hb : isBlank c = false) (hnl : c ≠ NL) :
    setupStep ⟨pre ++ c :: X, a, bg, start, ct⟩ pre.length
      = some ⟨pre ++ zapByte c :: X, a, if c = AMP then 1 else bg,
          some (start.getD pre.length), ct⟩ := by
  by_cases hc : c = AMP
  · subst hc
    rw [setupStep_amp]
    simp [zapByte]
  · rw [setupStep_plain pre X c a bg start ct hb hnl hc]
    simp [zapByte, hc]

theorem flagAfter_nil (bg : Int) : flagAfter bg [] = bg := by
  simp [flagAfter]

theorem flagAfter_cons (bg : Int) (c : Byte) (r : List Byte) :
    flagAfter bg (c :: r) = flagAfter (if c = AMP then 1 else bg) r := by
  by_cases hc : c = AMP
  · simp only [flagAfter, List.any_cons, hc, beq_self_eq_true, Bool.true_or, if_true]
    split <;> rfl
  · have : (c == AMP) = false := by simp [hc]
    simp only [flagAfter, List.any_cons, this, Bool.false_or, hc, if_false]

theorem flagAfter_eq (bg : Int) (l : List Byte) :
    flagAfter bg l = if AMP ∈ l then 1 else bg := by
  unfold flagAfter
  by_cases h : AMP ∈ l
  · have : l.any (fun b => b == AMP) = true := by
      rw [List.any_eq_true]
      exact ⟨AMP, h, by simp⟩
    simp [this, h]
  · have : l.any (fun b => b == AMP) = false := by
      rw [Bool.eq_false_iff]
      intro ht
      rw [List.any_eq_true] at ht
      obtain ⟨x, hx, hxe⟩ := ht
      have : x = AMP := by simpa using hxe
      exact h (this ▸ hx)
    simp [this, h]

theorem setupLoop_scan_amp (rest : List Byte) :
    ∀ (pre tl : List Byte) (bg : Int) (start : Option Nat) (offs : List Nat)
      (junk : List (Option Nat)) (done : List (List Byte)) (cur : List Byte),
      (∀ b ∈ rest, b ≠ NL ∧ b ≠ NUL) →
      (offs.map some ++ junk).length = MAX_ARGS →
      List.Forall₂ (Closed pre) offs done →
      InProgressAmp pre start cur →
      done.length + (runsFrom cur rest).length < MAX_ARGS →
      ∃ (buf : List Byte) (offs1 : List Nat) (junk1 : List (Option Nat))
        (start1 : Option Nat),
        setupLoop (rest.length + 1) pre.length
            ⟨pre ++ rest ++ NL :: tl, offs.map some ++ junk, bg, start, offs.length⟩
          = some ⟨buf, offs1.map some ++ none :: junk1, flagAfter bg rest,
              start1, offs1.length⟩ ∧
        (offs1.map some ++ none :: junk1).length = MAX_ARGS ∧
        offs1.map (cstr buf) = done ++ (runsFrom cur rest).map beforeAmp := by
  induction rest with
  | nil =>
    intro pre tl bg start offs junk done cur _ hlen hdone hcur hbound
    have hdl : offs.length = done.length := hdone.length_eq
    rw [runsFrom_nil] at hbound ⊢
    simp only [List.length_nil, Nat.zero_add, List.append_nil, setupLoop, flagAfter_nil]
    cases start with
    | none =>
      have hcur0 : cur = [] := hcur
      subst hcur0
      simp only [if_true, List.length_nil, Nat.add_zero] at hbound
      obtain ⟨j, junk1, rfl, hst⟩ := storeArg_next offs junk none hlen (by omega)
      refine ⟨pre ++ NUL :: tl, offs, junk1, none, ?_, ?_, ?_⟩
      · rw [setupStep_newline_idle, hst]; rfl
      · simpa using hlen
      · simp [closed_map _ hdone]
    | some st =>
      have hne : cur ≠ [] := hcur.1
      simp only [hne, if_false, List.length_singleton] at hbound ⊢
      obtain ⟨j, junk1, rfl, hst⟩ := storeArg_next offs junk (some st) hlen (by omega)
      have hlen2 : ((offs ++ [st]).map some ++ junk1).length = MAX_ARGS := by
        simpa [Nat.add_assoc] using hlen
      obtain ⟨j2, junk2, rfl, hst2⟩ :=
        storeArg_next (offs ++ [st]) junk1 none hlen2 (by simp; omega)
      have hcl := closed_snoc (closed_grow_all [NUL] hdone) (inProgressAmp_closed hcur)
      refine ⟨pre ++ NUL :: tl, offs ++ [st], junk2, some st, ?_, ?_, ?_⟩
      · rw [setupStep_newline_close, hst]
        simp only [List.length_append, List.length_singleton, List.map_append,
          List.map_cons, List.map_nil, List.append_assoc, List.singleton_append] at hst2 ⊢
        simp [hst2]
      · simpa using hlen2
      · have := closed_map tl hcl
        simpa using this
  | cons c r ih =>
    intro pre tl bg start offs junk done cur hclean hlen hdone hcur hbound
    have hdl : offs.length = done.length := hdone.length_eq
    have hc := hclean c (List.mem_cons_self c r)
    have hclean1 : ∀ b ∈ r, b ≠ NL ∧ b ≠ NUL :=
      fun b hb => hclean b (List.mem_cons_of_mem c hb)
    have hbuf : pre ++ c :: r ++ NL :: tl = pre ++ c :: (r ++ NL :: tl) := by simp
    have hnext : ∀ x : Byte, pre ++ x :: (r ++ NL :: tl) = (pre ++ [x]) ++ r ++ NL :: tl := by
      intro x; simp
    have hpl : ∀ x : Byte, pre.length + 1 = (pre ++ [x]).length := by intro x; simp
    rw [List.length_cons, setupLoop_succ, hbuf]
    cases hb : isBlank c with
    | true =>
      have hcamp : c ≠ AMP := by
        intro e; subst e; simp [isBlank, AMP, SP, TAB] at hb
      rw [runsFrom_blank cur c r hb] at hbound ⊢
      rw [flagAfter_cons, if_neg hcamp]
      cases start with
      | none =>
        have hcur0 : cur = [] := hcur
        subst hcur0
        simp only [if_true, List.nil_append] at hbound ⊢
        rw [setupStep_blank_idle pre _ c _ bg _ hb, Option.some_bind, hnext c, hpl c]
        exact ih (pre ++ [c]) tl bg none offs junk done [] hclean1 hlen
          (closed_grow_all [c] hdone) rfl hbound
      | some st =>
        have hne : cur ≠ [] := hcur.1
        simp only [hne, if_false, List.length_append, List.length_singleton] at hbound
        simp only [hne, if_false]
        obtain ⟨j, junk1, rfl, hst⟩ := storeArg_next offs junk (some st) hlen (by omega)
        have hlen2 : ((offs ++ [st]).map some ++ junk1).length = MAX_ARGS := by
          simpa [Nat.add_assoc] using hlen
        have hcl := closed_snoc (closed_grow_all [NUL] hdone) (inProgressAmp_closed hcur)
        have hih := ih (pre ++ [NUL]) tl bg none (offs ++ [st]) junk1
          (done ++ [beforeAmp cur]) [] hclean1 hlen2 hcl rfl (by simp; omega)
        rw [setupStep_blank_close pre _ c _ bg st _ hb, hst]
        simp only [Option.map_some', Option.some_bind, hnext NUL, hpl NUL]
        simpa using hih
    | false =>
      rw [runsFrom_nonblank cur c r hb] at hbound ⊢
      rw [setupStep_token pre _ c _ bg start _ hb hc.1, Option.some_bind, hnext (zapByte c),
        hpl (zapByte c)]
      have hcur1 := inProgressAmp_extend c hc.2 hcur
      obtain ⟨buf, offs1, junk1, start1, h1, h2, h3⟩ :=
        ih (pre ++ [zapByte c]) tl (if c = AMP then 1 else bg)
          (some (start.getD pre.length)) offs junk done (cur ++ [c])
          hclean1 hlen (closed_grow_all [zapByte c] hdone) hcur1 hbound
      refine ⟨buf, offs1, junk1, start1, ?_, h2, h3⟩
      rw [h1, flagAfter_cons]


/-- C19: a NUL-free line of at most `MAX_LINE` bytes whose only newline is its last byte and
that has at most 31 maximal runs of non-space, non-tab bytes makes `setup` return with one
token per run, in order, followed by NULL; each token is its run cut before the first `&`
of the run, so what follows an `&` inside a run is dropped and a run that begins with `&`
gives the empty string.  The flag is 1 when the line has an `&` and is left alone
otherwise. -/
theorem setup_tokens_stop_at_amp (body inputBuffer : List Byte)
    (args : List (Option Nat)) (background : Int)
    (_hlen : (body ++ [NL]).length ≤ MAX_LINE)
    (hargs : args.length = MAX_ARGS)
    (hclean : ∀ b ∈ body, b ≠ NL ∧ b ≠ NUL)
    (hruns : (maximalRuns body).length ≤ 31) :
    ∃ buf args1,
      setup (.data (body ++ [NL])) inputBuffer args background
        = .returned buf args1 (flagAfter background body) ∧
      (argv buf args1).take ((maximalRuns body).length + 1)
        = (maximalRuns body).map (fun r => some (beforeAmp r)) ++ [none] := by
  rw [maximalRuns_eq_runsFrom] at hruns ⊢
  obtain ⟨buf, offs1, junk1, start1, hloop, hlen1, hstr⟩ :=
    setupLoop_scan_amp body [] (inputBuffer.drop (body ++ [NL]).length) background none []
      args [] [] hclean (by simpa using hargs) List.Forall₂.nil rfl
      (by simp only [List.length_nil, Nat.zero_add, MAX_ARGS]; omega)
  have hcount : offs1.length = (runsFrom [] body).length := by
    have := congrArg List.length hstr
    simpa using this
  obtain ⟨j, junk2, hj, hst⟩ :=
    storeArg_next offs1 (none :: junk1) none hlen1 (by rw [hcount, MAX_ARGS]; omega)
  obtain ⟨rfl, rfl⟩ := List.cons.inj hj
  refine ⟨buf, offs1.map some ++ none :: junk1, ?_, ?_⟩
  · simp only [setup, List.length_append, List.length_singleton]
    simp only [List.length_nil, List.nil_append, List.map_nil, List.length_append,
      List.length_singleton, List.append_assoc, List.singleton_append] at hloop
    simp only [List.append_assoc, List.singleton_append]
    rw [hloop]
    simp only [hst]
  · rw [List.nil_append] at hstr
    have hmap : (runsFrom [] body).map (fun r => some (beforeAmp r))
        = (offs1.map (cstr buf)).map some := by
      rw [hstr, List.map_map]
      rfl
    rw [hmap, ← hcount]
    simp [argv, List.take_append_eq_append_take]

/-- C19 at the line `a&b &` with its newline: the tokens are `a` and the empty string, and
the flag becomes 1. -/
theorem setup_tokens_stop_at_amp_witness :
    ∃ buf args1,
      setup (.data ([97, 38, 98, 32, 38] ++ [NL])) (List.replicate 128 0)
          (List.replicate 32 none) 0
        = .returned buf args1 1 ∧
      (argv buf args1).take 3 = [some [97], some [], none] :=
  setup_tokens_stop_at_amp [97, 38, 98, 32, 38] (List.replicate 128 0)
    (List.replicate 32 none) 0 (by decide) (by decide) (by decide) (by decide)

/-! ## Arbitrary buffers: when the vector is empty -/

theorem storeArg_eq_some (a a1 : List (Option Nat)) (ct : Nat) (v : Option Nat)
    (h : storeArg a ct v = some a1) : ct < MAX_ARGS ∧ a1 = a.set ct v := by
  unfold storeArg at h
  split at h
  · exact ⟨by assumption, (Option.some.inj h).symm⟩
  · cases h

theorem getD_zero_set_succ (a : List (Option Nat)) (ct : Nat) (v : Option Nat) :
    (a.set (ct + 1) v).getD 0 none = a.getD 0 none := by
  cases a <;> simp

theorem getD_zero_set_zero (a : List (Option Nat)) (v : Option Nat) (h : 0 < a.length) :
    (a.set 0 v).getD 0 none = v := by
  cases a with
  | nil => simp at h
  | cons x xs => simp

theorem head_after_store (a a1 : List (Option Nat)) (ct st : Nat)
    (hlen : 0 < a.length) (hhead : 0 < ct → (a.getD 0 none).isSome = true)
    (h : storeArg a ct (some st) = some a1) :
    a1.length = a.length ∧ (a1.getD 0 none).isSome = true := by
  obtain ⟨_, rfl⟩ := storeArg_eq_some _ _ _ _ h
  refine ⟨by simp, ?_⟩
  cases ct with
  | zero => rw [getD_zero_set_zero _ _ hlen]; rfl
  | succ n => rw [getD_zero_set_succ]; exact hhead (by omega)

theorem head_after_null (a a1 : List (Option Nat)) (ct : Nat)
    (h : storeArg a ct none = some a1) :
    a1.length = a.length ∧ (0 < ct → a1.getD 0 none = a.getD 0 none) := by
  obtain ⟨_, rfl⟩ := storeArg_eq_some _ _ _ _ h
  refine ⟨by simp, ?_⟩
  intro hct
  cases ct with
  | zero => omega
  | succ n => exact getD_zero_set_succ _ _ _


theorem setupStep_progress (pre X : List Byte) (c : Byte) (a : List (Option Nat))
    (bg : Int) (start : Option Nat) (ct : Nat) (s1 : ParseState)
    (hlen : a.length = MAX_ARGS) (hhead : 0 < ct → (a.getD 0 none).isSome = true)
    (h : setupStep ⟨pre ++ c :: X, a, bg, start, ct⟩ pre.length = some s1) :
    (∃ c1, s1.inputBuffer = pre ++ c1 :: X) ∧ s1.args.length = MAX_ARGS ∧
    (0 < s1.ct → (s1.args.getD 0 none).isSome = true) ∧
    (start.isSome = true ∨ 0 < ct → s1.start.isSome = true ∨ 0 < s1.ct) ∧
    (¬ (c = SP ∨ c = TAB ∨ c = NL) → s1.start.isSome = true) ∧
    (c = NL → start.isSome = true ∨ 0 < ct → 0 < s1.ct) := by
  have hpos : 0 < a.length := by rw [hlen]; decide
  cases hb : isBlank c with
  | true =>
    have hc := (isBlank_iff c).1 hb
    have hcnl : c ≠ NL := by
      rcases hc with e | e <;> rw [e] <;> decide
    cases start with
    | none =>
      rw [setupStep_blank_idle pre X c a bg ct hb] at h
      cases Option.some.inj h
      refine ⟨⟨c, rfl⟩, hlen, hhead, ?_, ?_, ?_⟩
      · intro hx; rcases hx with hx | hx
        · simp at hx
        · exact Or.inr hx
      · intro hx; exact absurd (by rcases hc with e | e <;> simp [e]) hx
      · intro e; exact absurd e hcnl
    | some st =>
      rw [setupStep_blank_close pre X c a bg st ct hb] at h
      cases hs : storeArg a ct (some st) with
      | none => simp [hs] at h
      | some a1 =>
        simp only [hs, Option.map_some', Option.some.injEq] at h
        subst h
        obtain ⟨hl1, hh1⟩ := head_after_store a a1 ct st hpos hhead hs
        refine ⟨⟨NUL, rfl⟩, by rw [hl1, hlen], fun _ => hh1, fun _ => Or.inr (by simp), ?_, ?_⟩
        · intro hx; exact absurd (by rcases hc with e | e <;> simp [e]) hx
        · intro e; exact absurd e hcnl
  | false =>
    by_cases hnl : c = NL
    · subst hnl
      cases start with
      | none =>
        rw [setupStep_newline_idle pre X a bg ct] at h
        cases hs : storeArg a ct none with
        | none => simp [hs] at h
        | some a1 =>
          simp only [hs, Option.map_some', Option.some.injEq] at h
          subst h
          obtain ⟨hl1, hh1⟩ := head_after_null a a1 ct hs
          refine ⟨⟨NUL, rfl⟩, by rw [hl1, hlen], ?_, ?_, ?_, ?_⟩
          · intro hct
            show (a1.getD 0 none).isSome = true
            rw [hh1 hct]; exact hhead hct
          · intro hx; rcases hx with hx | hx
            · simp at hx
            · exact Or.inr hx
          · intro hx; exact absurd (Or.inr (Or.inr rfl)) hx
          · intro _ hx; rcases hx with hx | hx
            · simp at hx
            · exact hx
      | some st =>
        rw [setupStep_newline_close pre X a bg st ct] at h
        cases hs : storeArg a ct (some st) with
        | none => simp [hs] at h
        | some a1 =>
          obtain ⟨hl1, hh1⟩ := head_after_store a a1 ct st hpos hhead hs
          cases hs2 : storeArg a1 (ct + 1) none with
          | none => simp [hs, hs2] at h
          | some a2 =>
            simp only [hs, hs2, Option.some_bind, Option.map_some', Option.some.injEq] at h
            subst h
            obtain ⟨hl2, hh2⟩ := head_after_null a1 a2 (ct + 1) hs2
            refine ⟨⟨NUL, rfl⟩, by rw [hl2, hl1, hlen], ?_, fun _ => Or.inr (by simp), ?_,
              fun _ _ => by simp⟩
            · intro _
              show (a2.getD 0 none).isSome = true
              rw [hh2 (by omega)]; exact hh1
            · intro hx; exact absurd (Or.inr (Or.inr rfl)) hx
    · rw [setupStep_token pre X c a bg start ct hb hnl] at h
      cases Option.some.inj h
      refine ⟨⟨zapByte c, rfl⟩, hlen, hhead, fun _ => Or.inl rfl, fun _ => rfl, ?_⟩
      intro e; exact absurd e hnl


theorem setupLoop_add (n m : Nat) :
    ∀ (i : Nat) (s : ParseState),
      setupLoop (n + m) i s = (setupLoop n i s).bind (setupLoop m (i + n)) := by
  induction n with
  | zero => intro i s; simp [setupLoop]
  | succ k ih =>
    intro i s
    have e : k + 1 + m = (k + m) + 1 := by omega
    rw [e, setupLoop_succ, setupLoop_succ]
    cases hs : setupStep s i with
    | none => rfl
    | some s1 =>
      simp only [Option.some_bind]
      rw [ih (i + 1) s1]
      have e2 : i + 1 + k = i + (k + 1) := by omega
      rw [e2]

theorem setupLoop_progress (rest : List Byte) :
    ∀ (pre X : List Byte) (a : List (Option Nat)) (bg : Int) (start : Option Nat)
      (ct : Nat) (s1 : ParseState),
      a.length = MAX_ARGS → (0 < ct → (a.getD 0 none).isSome = true) →
      setupLoop rest.length pre.length ⟨pre ++ rest ++ X, a, bg, start, ct⟩ = some s1 →
      (∃ pre1, s1.inputBuffer = pre1 ++ X ∧ pre1.length = pre.length + rest.length) ∧
      s1.args.length = MAX_ARGS ∧
      (0 < s1.ct → (s1.args.getD 0 none).isSome = true) ∧
      ((start.isSome = true ∨ 0 < ct) ∨ (∃ b ∈ rest, ¬ (b = SP ∨ b = TAB ∨ b = NL)) →
        s1.start.isSome = true ∨ 0 < s1.ct) := by
  induction rest with
  | nil =>
    intro pre X a bg start ct s1 hlen hhead h
    simp only [List.length_nil, setupLoop, List.append_nil, Option.some.injEq] at h
    subst h
    refine ⟨⟨pre, rfl, rfl⟩, hlen, hhead, ?_⟩
    intro hx
    rcases hx with hx | ⟨b, hb, _⟩
    · exact hx
    · simp at hb
  | cons c r ih =>
    intro pre X a bg start ct s1 hlen hhead h
    have hbuf : pre ++ c :: r ++ X = pre ++ c :: (r ++ X) := by simp
    rw [List.length_cons, setupLoop_succ, hbuf] at h
    cases hs : setupStep ⟨pre ++ c :: (r ++ X), a, bg, start, ct⟩ pre.length with
    | none => simp [hs] at h
    | some s2 =>
      rw [hs, Option.some_bind] at h
      obtain ⟨⟨c1, hb2⟩, hl2, hh2, hbusy, hnb, _⟩ :=
        setupStep_progress pre (r ++ X) c a bg start ct s2 hlen hhead hs
      obtain ⟨buf2, a2, bg2, start2, ct2⟩ := s2
      simp only at hb2 hl2 hh2 hbusy hnb
      subst hb2
      have hnext : pre ++ c1 :: (r ++ X) = (pre ++ [c1]) ++ r ++ X := by simp
      have hpl : pre.length + 1 = (pre ++ [c1]).length := by simp
      rw [hnext, hpl] at h
      obtain ⟨⟨pre1, hp1, hp2⟩, hl3, hh3, hfin⟩ :=
        ih (pre ++ [c1]) X a2 bg2 start2 ct2 s1 hl2 hh2 h
      refine ⟨⟨pre1, hp1, by simp at hp2 ⊢; omega⟩, hl3, hh3, ?_⟩
      intro hx
      apply hfin
      rcases hx with hx | ⟨b, hb, hbn⟩
      · exact Or.inl (hbusy hx)
      · rcases List.mem_cons.1 hb with e | hbr
        · subst e
          exact Or.inl (Or.inl (hnb hbn))
        · exact Or.inr ⟨b, hbr, hbn⟩


theorem visible_ne_nil_of_head (buf : List Byte) (args : List (Option Nat))
    (h : (args.getD 0 none).isSome = true) : visible (argv buf args) ≠ [] := by
  cases args with
  | nil => simp at h
  | cons x xs =>
    cases x with
    | none => simp at h
    | some off => simp [argv, visible]

/-- C16 as it stands fails: the one-byte buffer `a`, which a `read` returns when the input
ends without a newline, leaves the argument vector empty although `a` is not a space, tab
or newline. -/
theorem unterminated_token_is_dropped :
    (setup (.data [97]) (List.replicate MAX_LINE NUL) (List.replicate MAX_ARGS none) 0).vector
      = some [] ∧
    ¬ (∀ b ∈ ([97] : List Byte), b = SP ∨ b = TAB ∨ b = NL) := by
  decide

/-- C16 amended: for a buffer of at most `MAX_LINE` bytes whose last byte is a newline, when
`setup` returns and the argument vector it leaves is empty, every byte of the buffer is a
space, a tab or a newline. -/
theorem empty_vector_means_blank_buffer (body inputBuffer : List Byte)
    (args : List (Option Nat)) (background : Int) (buf : List Byte)
    (args1 : List (Option Nat)) (bg1 : Int)
    (_hlen : (body ++ [NL]).length ≤ MAX_LINE)
    (hargs : args.length = MAX_ARGS)
    (hret : setup (.data (body ++ [NL])) inputBuffer args background
      = .returned buf args1 bg1)
    (hempty : visible (argv buf args1) = []) :
    ∀ b ∈ body ++ [NL], b = SP ∨ b = TAB ∨ b = NL := by
  -- unfold the call into the loop and the final store
  simp only [setup, List.length_append, List.length_singleton, List.append_assoc,
    List.singleton_append] at hret
  cases hloop : setupLoop (body.length + 1) 0
      ⟨body ++ NL :: inputBuffer.drop (body.length + 1), args, background, none, 0⟩ with
  | none => simp [hloop] at hret
  | some s =>
    simp only [hloop] at hret
    cases hfin : storeArg s.args s.ct none with
    | none => simp [hfin] at hret
    | some a1 =>
      simp only [hfin, SetupOutcome.returned.injEq] at hret
      obtain ⟨hbuf, ha1, _⟩ := hret
      subst ha1
      -- split off the last iteration
      rw [setupLoop_add body.length 1 0] at hloop
      cases hbody : setupLoop body.length 0
          ⟨body ++ NL :: inputBuffer.drop (body.length + 1), args, background, none, 0⟩ with
      | none => simp [hbody] at hloop
      | some s2 =>
        rw [hbody, Option.some_bind, setupLoop_succ] at hloop
        have hprog := setupLoop_progress body [] (NL :: inputBuffer.drop (body.length + 1))
          args background none 0 s2 hargs (fun h => absurd h (by decide))
          (by simpa using hbody)
        obtain ⟨⟨pre1, hp1, hp2⟩, hl2, hh2, hbusy⟩ := hprog
        obtain ⟨buf2, a2, bg2, start2, ct2⟩ := s2
        simp only at hp1 hl2 hh2 hbusy
        subst hp1
        have hidx : 0 + body.length = pre1.length := by simp at hp2; omega
        rw [hidx] at hloop
        cases hstep : setupStep ⟨pre1 ++ NL :: inputBuffer.drop (body.length + 1), a2, bg2,
            start2, ct2⟩ pre1.length with
        | none => simp [hstep] at hloop
        | some s3 =>
          rw [hstep, Option.some_bind] at hloop
          simp only [setupLoop, Option.some.injEq] at hloop
          subst hloop
          obtain ⟨_, hl3, hh3, _, _, hnl⟩ :=
            setupStep_progress pre1 _ NL a2 bg2 start2 ct2 s3 hl2 hh2 hstep
          intro b hb
          by_contra hbad
          have hbody_mem : b ∈ body := by
            rcases List.mem_append.1 hb with h | h
            · exact h
            · have : b = NL := by simpa using h
              exact absurd (Or.inr (Or.inr this)) hbad
          have hct : 0 < s3.ct := hnl rfl (hbusy (Or.inr ⟨b, hbody_mem, hbad⟩))
          have hhead := hh3 hct
          obtain ⟨_, hsame⟩ := head_after_null s3.args a1 s3.ct hfin
          have : (a1.getD 0 none).isSome = true := by rw [hsame hct]; exact hhead
          exact visible_ne_nil_of_head buf a1 this hempty

/-- C16 amended, for the buffer of a space, a tab and a newline: `setup` returns with an
empty vector, and the tab of the buffer is one of the three blank bytes. -/
theorem empty_vector_means_blank_buffer_witness :
    setup (.data ([SP, TAB] ++ [NL])) (List.replicate MAX_LINE NUL)
        (List.replicate MAX_ARGS none) 0
      = .returned ([SP, TAB, NUL] ++ List.replicate 125 NUL) (List.replicate MAX_ARGS none) 0 ∧
    visible (argv ([SP, TAB, NUL] ++ List.replicate 125 NUL)
      (List.replicate MAX_ARGS none)) = [] ∧
    (TAB = SP ∨ TAB = TAB ∨ TAB = NL) :=
  ⟨by decide, by decide,
   empty_vector_means_blank_buffer [SP, TAB] (List.replicate MAX_LINE NUL)
     (List.replicate MAX_ARGS none) 0
     ([SP, TAB, NUL] ++ List.replicate 125 NUL) (List.replicate MAX_ARGS none) 0
     (by decide) (by decide) (by decide) (by decide) TAB (by decide)⟩

end MyShell

